import Mathlib

/-!
# AMRange: half-open ranges and sets of ranges

A shallow embedding of `AMRange.h` (namespace `AMCore`), instantiated at `T = int`.
The code only compares and copies bounds, it never does arithmetic on them, so
bounds are modelled by `Int`.

A `std::set<AMRange<T> >` is modelled by the list of its members in iteration
order.  The container keeps that list strictly ascending under `operator<`; the
predicate `IsSet` states this.  Functions are defined on all lists, theorems that
depend on the container order assume `IsSet`.

Names: `from`, `to` and `in` are reserved words, so the fields `from`, `to` are
`from_`, `to_`, the method `in(T)` is `inT` and `in(const AMRange&)` is `inRange`.  The operators
`<`, `+=`, `-=` are `lt`, `add`, `sub`; on sets `+` and `-` are `setAdd`, `setSub`.
-/

namespace AMCore

/-- The class `AMRange<T>`: the pair of bounds `from`, `to`. -/
structure AMRange where
  from_ : Int
  to_ : Int
deriving DecidableEq, Repr

namespace AMRange

/-- The method `valid()`: `to >= from`. -/
def valid (a : AMRange) : Bool := decide (a.to_ ≥ a.from_)

/-- The method `empty()`: `to == from`. -/
def empty (a : AMRange) : Bool := decide (a.to_ = a.from_)

/-- The method `nonEmpty()`: `to > from`. -/
def nonEmpty (a : AMRange) : Bool := decide (a.to_ > a.from_)

/-- The method `in(T num)`: `num >= from && num < to`. -/
def inT (a : AMRange) (num : Int) : Bool := decide (num ≥ a.from_) && decide (num < a.to_)

/-- The method `in(const AMRange&)`. -/
def inRange (a rng : AMRange) : Bool :=
  decide (rng.from_ ≥ a.from_) && decide (rng.to_ ≤ a.to_) && decide (rng.from_ < rng.to_)

/-- The member `operator<`. -/
def lt (a right : AMRange) : Bool :=
  if a.from_ < right.from_ then true
  else if a.from_ = right.from_ then decide (a.to_ < right.to_)
  else false

/-- The member `operator==`. -/
def eq (a right : AMRange) : Bool := decide (a.from_ = right.from_) && decide (a.to_ = right.to_)

/-- The member `operator!=`. -/
def ne (a right : AMRange) : Bool := decide (a.from_ ≠ right.from_) || decide (a.to_ ≠ right.to_)

/-- The member `operator-=`, returning the new value of the receiver.  The free
`operator-` copies `left` and applies it, so `left - right` is `left.sub right`. -/
def sub (a right : AMRange) : AMRange :=
  if !a.valid then a
  else if !right.valid then ⟨right.from_, right.to_⟩
  else if a.from_ < right.from_ then
    if a.to_ > right.to_ then ⟨a.to_, a.from_⟩
    else if a.to_ > right.from_ then ⟨a.from_, right.from_⟩
    else a
  else
    if a.to_ < right.to_ then ⟨a.from_, a.from_⟩
    else if a.from_ < right.to_ then ⟨right.to_, a.to_⟩
    else a

/-- The member `intersect`, returning the new value of the receiver.  The free
`intersect(left, right)` copies `left` and applies it, so it is `left.intersect right`. -/
def intersect (a right : AMRange) : AMRange :=
  let from1 := if a.from_ < right.from_ then right.from_ else a.from_
  let to1 := if a.to_ > right.to_ then right.to_ else a.to_
  let to2 := if to1 < from1 then from1 else to1
  ⟨from1, to2⟩

/-- The member `operator+=`, returning the new value of the receiver.  The free
`operator+` copies `left` and applies it, so `left + right` is `left.add right`. -/
def add (a right : AMRange) : AMRange :=
  if !a.valid then a
  else if !right.valid then ⟨right.from_, right.to_⟩
  else if a.to_ < right.from_ || a.from_ > right.to_ then
    if a.from_ = a.to_ then ⟨right.from_, right.to_⟩
    else ⟨a.to_, a.from_⟩
  else
    let to1 := if a.to_ < right.to_ then right.to_ else a.to_
    let from1 := if a.from_ > right.from_ then right.from_ else a.from_
    ⟨from1, to1⟩

end AMRange

/-- The container invariant of `std::set<AMRange<T> >`: iteration order is
strictly ascending under `operator<`. -/
def IsSet (s : List AMRange) : Prop := s.Pairwise (fun a b => a.lt b = true)

instance (s : List AMRange) : Decidable (IsSet s) := by
  unfold IsSet; infer_instance

/-- The call `std::set::insert` (also through `std::inserter`): the element goes to
its place in the order, and is dropped when an equivalent element (neither less
than the other) is already there. -/
def setInsert (x : AMRange) : List AMRange → List AMRange
  | [] => [x]
  | y :: ys =>
    if x.lt y then x :: y :: ys
    else if y.lt x then y :: setInsert x ys
    else y :: ys

/-- The loop of `isPacked`: `it` is the current member, the list holds the members
from `itn` on. -/
def isPackedLoop (it : AMRange) : List AMRange → Bool
  | [] => true
  | itn :: rest =>
    if itn.from_ > it.to_ then
      if !itn.valid then false else isPackedLoop itn rest
    else false

/-- The function `isPacked`. -/
def isPacked : List AMRange → Bool
  | [] => true
  | it :: rest => if !it.valid then false else isPackedLoop it rest

/-- The function `valid` on sets. -/
def valid : List AMRange → Bool
  | [] => true
  | it :: rest => if !it.valid then false else valid rest

/-- The loop of `pack` once `start` is false: the list holds the members from `it`
on, `r` is the accumulator. -/
def packRun : List AMRange → AMRange → List AMRange → List AMRange
  | [], r, result => setInsert r result
  | it :: rest, r, result =>
    if !it.valid then packRun rest r result
    else
      let rx := r.add it
      if rx.valid then packRun rest rx result
      else packRun rest it (setInsert r result)

/-- The loop of `pack` while `start` is true (`result` is still empty): invalid
members are skipped; at the first valid member `r = *it; start = false; continue`
re-enters the loop without advancing `it`, so that member is visited again by
`packRun`. -/
def packStart : List AMRange → List AMRange
  | [] => []
  | it :: rest => if !it.valid then packStart rest else packRun (it :: rest) it []

/-- The function `pack`. -/
def pack (s : List AMRange) : List AMRange := packStart s

/-- The algorithm `std::merge` on two sequences: the output sequence, in order. -/
def merge : List AMRange → List AMRange → List AMRange
  | [], ys => ys
  | x :: xs, [] => x :: xs
  | x :: xs, y :: ys =>
    if y.lt x then y :: merge (x :: xs) ys
    else x :: merge xs (y :: ys)
termination_by xs ys => xs.length + ys.length

/-- Writing a sequence through `std::inserter(result, ...)`: every element is
inserted into the set `result`, first to last. -/
def insertAll : List AMRange → List AMRange → List AMRange
  | [], result => result
  | x :: xs, result => insertAll xs (setInsert x result)

/-- The function `operator+` on two sets. -/
def setAdd (left right : List AMRange) : List AMRange :=
  let result := left
  let result := insertAll (merge left right) result
  pack result

/-- The function `operator+(const AMRange&, const std::set&)`. -/
def rangeAddSet (left : AMRange) (right : List AMRange) : List AMRange :=
  pack (setInsert left right)

/-- The function `operator+(const std::set&, const AMRange&)`. -/
def setAddRange (left : List AMRange) (right : AMRange) : List AMRange :=
  pack (setInsert right left)

/-- The step `lit++; if (lit != ls.end()) { if (r.nonEmpty()) result.insert(r); r = *lit; }`
of `operator-` on sets (it occurs twice in the loop).  The list holds the members of
`ls` from the new `lit` on; the value is the new `r` and `result`. -/
def advanceLeft (ls : List AMRange) (r : AMRange) (result : List AMRange) :
    AMRange × List AMRange :=
  match ls with
  | [] => (r, result)
  | l2 :: _ => (l2, if r.nonEmpty then setInsert r result else result)

/-- The step `AMRange<T> tr = r - *rit; if (!tr.valid()) { AMRange ir(r.from, rit->from);
if (ir.nonEmpty()) result.insert(ir); r.from = rit->to; } else { r = tr; }` of
`operator-` on sets, with `q = *rit`; the value is the new `r` and `result`. -/
def subStep (r q : AMRange) (result : List AMRange) : AMRange × List AMRange :=
  let tr := r.sub q
  if !tr.valid then
    let ir : AMRange := ⟨r.from_, q.from_⟩
    (⟨q.to_, r.to_⟩, if ir.nonEmpty then setInsert ir result else result)
  else (tr, result)

/-- The `while (1)` loop of `operator-` on sets.  The first list holds the members
of `ls` from `lit` on, the second the members of `rs` from `rit` on; `r` is the
current remainder.  The value is `r` and `result` at the `break`. -/
def subLoop : List AMRange → List AMRange → AMRange → List AMRange → AMRange × List AMRange
  | [], [], r, result => (r, result)
  | [], _ :: rs, r, result => subLoop [] rs r result
  | _ :: ls, [], r, result =>
    subLoop ls [] (advanceLeft ls r result).1 (advanceLeft ls r result).2
  | l :: ls, q :: rs, r, result =>
    if l.to_ > q.to_ then
      subLoop (l :: ls) rs (subStep r q result).1 (subStep r q result).2
    else
      subLoop ls (q :: rs)
        (advanceLeft ls (subStep r q result).1 (subStep r q result).2).1
        (advanceLeft ls (subStep r q result).1 (subStep r q result).2).2
termination_by ls rs => ls.length + rs.length

/-- The function `operator-` on two sets.  When `pack(left)` is empty (a non-empty
`left` without a valid member) the code reads `*lit` at `ls.end()`, which is
undefined: the model returns `none` there. -/
def setSub (left right : List AMRange) : Option (List AMRange) :=
  if left.length = 0 then some []
  else if right.length = 0 then some left
  else
    let ls := pack left
    let rs := pack right
    match ls with
    | [] => none
    | r :: _ =>
      let fin := subLoop ls rs r []
      some (if fin.1.nonEmpty then setInsert fin.1 fin.2 else fin.2)

/-- The function `operator-(const AMRange&, const std::set&)`. -/
def rangeSubSet (left : AMRange) (right : List AMRange) : Option (List AMRange) :=
  setSub [left] right

/-- The function `operator-(const std::set&, const AMRange&)`. -/
def setSubRange (left : List AMRange) (right : AMRange) : Option (List AMRange) :=
  setSub left [right]

/-! ## Specification-level notions

These are not in the source: they state what the claims are about, and describe
the sequence of ranges a loop emits before it is stored in a `std::set`. -/

/-- The point `x` is covered by the set `s`: some member `r` has `r.in(x)`. -/
def Covers (s : List AMRange) (x : Int) : Prop := ∃ r ∈ s, r.inT x = true

/-- The packed form in words: every member is valid, and every later member starts
strictly after the end of every earlier one. -/
def Packed (s : List AMRange) : Prop :=
  (∀ x ∈ s, x.valid = true) ∧ s.Pairwise (fun a b => a.to_ < b.from_)

/-- The ranges `packRun` hands to `result.insert`, in the order of the calls. -/
def packOut : List AMRange → AMRange → List AMRange
  | [], r => [r]
  | it :: rest, r =>
    if !it.valid then packOut rest r
    else if (r.add it).valid then packOut rest (r.add it)
    else r :: packOut rest it

/-- The ranges `pack` hands to `result.insert`, in the order of the calls. -/
def packList : List AMRange → List AMRange
  | [] => []
  | it :: rest => if !it.valid then packList rest else packOut (it :: rest) it

/-- The ranges `operator-` on sets hands to `result.insert` from the loop state on,
in the order of the calls, the one after the loop included.  (`advanceLeft` and
`subStep` started on an empty `result` give the ranges they insert.) -/
def subOut : List AMRange → List AMRange → AMRange → List AMRange
  | [], [], r => if r.nonEmpty then [r] else []
  | [], _ :: rs, r => subOut [] rs r
  | _ :: ls, [], r => (advanceLeft ls r []).2 ++ subOut ls [] (advanceLeft ls r []).1
  | l :: ls, q :: rs, r =>
    if l.to_ > q.to_ then (subStep r q []).2 ++ subOut (l :: ls) rs (subStep r q []).1
    else (subStep r q []).2 ++ ((advanceLeft ls (subStep r q []).1 []).2 ++
      subOut ls (q :: rs) (advanceLeft ls (subStep r q []).1 []).1)
termination_by ls rs => ls.length + rs.length

/-- The statement after the loop of `operator-` on sets:
`if (r.nonEmpty()) result.insert(r)`. -/
def subFinal (p : AMRange × List AMRange) : List AMRange :=
  if p.1.nonEmpty then setInsert p.1 p.2 else p.2

/-! ## Sets of the test `setTest` -/

/-- The set `s05` of the test: two overlapping ranges. -/
def s05 : List AMRange := [⟨1, 5⟩, ⟨3, 9⟩]

/-- The set `s07` of the test: overlapping and touching ranges. -/
def s07 : List AMRange := [⟨1, 5⟩, ⟨7, 9⟩, ⟨7, 12⟩, ⟨12, 15⟩, ⟨17, 19⟩]

/-- A packed set with three members (not in the test). -/
def s19 : List AMRange := [⟨1, 5⟩, ⟨7, 9⟩, ⟨17, 19⟩]

/-! ## The loops as step functions

The same two loops once more, one pass through the loop body at a time, to state
that they terminate. -/

/-- What one pass through a loop body does: it goes on with a new loop state, or it
leaves the loop with a value. -/
inductive LoopStep (σ ρ : Type) where
  | next : σ → LoopStep σ ρ
  | ret : ρ → LoopStep σ ρ

/-- Running a loop for at most `fuel` passes: `none` when it has not left the loop
by then. -/
def runLoop {σ ρ : Type} (step : σ → LoopStep σ ρ) : Nat → σ → Option ρ
  | 0, _ => none
  | fuel + 1, st =>
    match step st with
    | LoopStep.ret res => some res
    | LoopStep.next st1 => runLoop step fuel st1

/-- The local variables of `pack`; the iterator `it` is given by the members of `s`
from `it` on. -/
structure PackState where
  it : List AMRange
  start : Bool
  r : AMRange
  result : List AMRange

/-- The locals of `pack` at loop entry: `AMRange<T> r;` (bounds `T()`), an empty
`result`, `start = true`, `it = s.begin()`. -/
def packInit (s : List AMRange) : PackState := ⟨s, true, ⟨0, 0⟩, []⟩

/-- One pass of the loops of `pack`: the `return` at `it == s.end()`, the `it++` of the
inner loop on an invalid member, the `continue` that clears `start` without advancing
`it`, or the rest of the outer body ending in `it++`. -/
def packStep (st : PackState) : LoopStep PackState (List AMRange) :=
  match st.it with
  | [] => LoopStep.ret (if !st.start then setInsert st.r st.result else st.result)
  | m :: rest =>
    if !m.valid then LoopStep.next ⟨rest, st.start, st.r, st.result⟩
    else if st.start then LoopStep.next ⟨m :: rest, false, m, st.result⟩
    else
      let rx := st.r.add m
      if rx.valid then LoopStep.next ⟨rest, false, rx, st.result⟩
      else LoopStep.next ⟨rest, false, m, setInsert st.r st.result⟩

/-- The loop measure of `pack`: twice the number of members from `it` on, plus one
while `start` is set. -/
def packMeasure (st : PackState) : Nat := 2 * st.it.length + (if st.start then 1 else 0)

/-- The local variables of the loop of `operator-` on sets; the cursors `lit`, `rit`
are given by the members of `ls` from `lit` on and of `rs` from `rit` on. -/
structure SubState where
  lit : List AMRange
  rit : List AMRange
  r : AMRange
  result : List AMRange

/-- One pass of the `while (1)` loop of `operator-` on sets. -/
def subLoopStep (st : SubState) : LoopStep SubState (AMRange × List AMRange) :=
  match st.lit, st.rit with
  | [], [] => LoopStep.ret (st.r, st.result)
  | [], _ :: rs => LoopStep.next ⟨[], rs, st.r, st.result⟩
  | _ :: ls, [] =>
    LoopStep.next ⟨ls, [], (advanceLeft ls st.r st.result).1, (advanceLeft ls st.r st.result).2⟩
  | l :: ls, q :: rs =>
    if l.to_ > q.to_ then
      LoopStep.next ⟨l :: ls, rs, (subStep st.r q st.result).1, (subStep st.r q st.result).2⟩
    else
      LoopStep.next ⟨ls, q :: rs,
        (advanceLeft ls (subStep st.r q st.result).1 (subStep st.r q st.result).2).1,
        (advanceLeft ls (subStep st.r q st.result).1 (subStep st.r q st.result).2).2⟩

/-! ## Ranges: basic facts -/

theorem AMRange.valid_iff (a : AMRange) : a.valid = true ↔ a.from_ ≤ a.to_ := by
  simp [AMRange.valid]

theorem AMRange.nonEmpty_iff (a : AMRange) : a.nonEmpty = true ↔ a.from_ < a.to_ := by
  simp [AMRange.nonEmpty]

theorem AMRange.inT_iff (a : AMRange) (x : Int) :
    a.inT x = true ↔ a.from_ ≤ x ∧ x < a.to_ := by
  simp [AMRange.inT]

theorem AMRange.lt_iff (a b : AMRange) :
    a.lt b = true ↔ a.from_ < b.from_ ∨ (a.from_ = b.from_ ∧ a.to_ < b.to_) := by
  unfold AMRange.lt
  split_ifs with h1 h2 <;> simp <;> omega

theorem AMRange.ext_iff2 (a b : AMRange) : a = b ↔ a.from_ = b.from_ ∧ a.to_ = b.to_ := by
  cases a; cases b; simp

theorem AMRange.lt_trans {a b c : AMRange} (h1 : a.lt b = true) (h2 : b.lt c = true) :
    a.lt c = true := by
  rw [AMRange.lt_iff] at *; omega

theorem AMRange.lt_irrefl (a : AMRange) : a.lt a = false := by
  rw [← Bool.not_eq_true, AMRange.lt_iff]; omega

theorem AMRange.eq_of_not_lt {a b : AMRange} (h1 : ¬ a.lt b = true) (h2 : ¬ b.lt a = true) :
    a = b := by
  rw [AMRange.lt_iff] at h1 h2
  rw [AMRange.ext_iff2]; omega

/-! ## The container: insertion and extensionality -/

theorem mem_setInsert (x y : AMRange) (l : List AMRange) :
    y ∈ setInsert x l ↔ y = x ∨ y ∈ l := by
  induction l with
  | nil => simp [setInsert]
  | cons z zs ih =>
    unfold setInsert
    split_ifs with h1 h2
    · simp
    · simp [ih]; tauto
    · have hxz : x = z := AMRange.eq_of_not_lt h1 h2
      subst hxz
      simp

theorem setInsert_isSet (x : AMRange) (l : List AMRange) (h : IsSet l) :
    IsSet (setInsert x l) := by
  induction l with
  | nil => simp [setInsert, IsSet]
  | cons z zs ih =>
    unfold IsSet at h ih ⊢
    rw [List.pairwise_cons] at h
    unfold setInsert
    split_ifs with h1 h2
    · rw [List.pairwise_cons, List.pairwise_cons]
      refine ⟨?_, h.1, h.2⟩
      intro y hy
      rcases List.mem_cons.1 hy with rfl | hy
      · exact h1
      · exact AMRange.lt_trans h1 (h.1 y hy)
    · rw [List.pairwise_cons]
      refine ⟨?_, ih h.2⟩
      intro y hy
      rcases (mem_setInsert x y zs).1 hy with rfl | hy
      · exact h2
      · exact h.1 y hy
    · rw [List.pairwise_cons]; exact h

theorem insertAll_isSet (xs l : List AMRange) (h : IsSet l) : IsSet (insertAll xs l) := by
  induction xs generalizing l with
  | nil => simpa [insertAll] using h
  | cons x xs ih => simpa [insertAll] using ih _ (setInsert_isSet x l h)

theorem mem_insertAll (xs l : List AMRange) (y : AMRange) :
    y ∈ insertAll xs l ↔ y ∈ xs ∨ y ∈ l := by
  induction xs generalizing l with
  | nil => simp [insertAll]
  | cons x xs ih => simp [insertAll, ih, mem_setInsert]; tauto

theorem isSet_nodup {l : List AMRange} (h : IsSet l) : l.Nodup := by
  unfold IsSet at h
  refine List.Pairwise.imp ?_ h
  intro a b hab heq
  subst heq
  rw [AMRange.lt_irrefl] at hab
  exact Bool.false_ne_true hab

theorem isSet_ext {a b : List AMRange} (ha : IsSet a) (hb : IsSet b)
    (h : ∀ x, x ∈ a ↔ x ∈ b) : a = b := by
  have hp : a.Perm b := (List.perm_ext_iff_of_nodup (isSet_nodup ha) (isSet_nodup hb)).2 h
  have : IsAntisymm AMRange (fun a b => a.lt b = true) :=
    ⟨fun x y hxy hyx => by
      have := AMRange.lt_trans hxy hyx
      rw [AMRange.lt_irrefl] at this
      exact absurd this Bool.false_ne_true⟩
  exact List.eq_of_perm_of_sorted hp ha hb

/-! ## Packed sets -/

theorem isPackedLoop_iff (it : AMRange) (rest : List AMRange) :
    isPackedLoop it rest = true ↔
      (∀ y ∈ rest, y.valid = true ∧ it.to_ < y.from_) ∧
        rest.Pairwise (fun a b => a.to_ < b.from_) := by
  induction rest generalizing it with
  | nil => simp [isPackedLoop]
  | cons itn rest ih =>
    unfold isPackedLoop
    by_cases h1 : itn.from_ > it.to_
    · by_cases h2 : itn.valid = true
      · have hv := (AMRange.valid_iff itn).1 h2
        simp only [h1, h2, if_true, Bool.not_true, Bool.false_eq_true, if_false, ih,
          List.pairwise_cons, List.mem_cons, forall_eq_or_imp]
        constructor
        · rintro ⟨h3, h4⟩
          refine ⟨⟨?_, fun y hy => ⟨(h3 y hy).1, ?_⟩⟩, fun y hy => (h3 y hy).2, h4⟩
          · exact ⟨trivial, trivial⟩
          · have := (h3 y hy).2
            omega
        · rintro ⟨⟨_, h3⟩, h4, h5⟩
          exact ⟨fun y hy => ⟨(h3 y hy).1, h4 y hy⟩, h5⟩
      · simp [h1, h2]
    · simp only [h1, if_false, Bool.false_eq_true, false_iff]
      intro h
      exact h1 (h.1 itn (List.mem_cons_self _ _)).2

theorem isPacked_iff (s : List AMRange) : isPacked s = true ↔ Packed s := by
  cases s with
  | nil => simp [isPacked, Packed]
  | cons it rest =>
    unfold isPacked Packed
    by_cases h : it.valid = true
    · simp only [h, Bool.not_true, Bool.false_eq_true, if_false, isPackedLoop_iff,
        List.pairwise_cons, List.mem_cons, forall_eq_or_imp, true_and]
      constructor
      · rintro ⟨h1, h2⟩
        exact ⟨fun y hy => (h1 y hy).1, fun y hy => (h1 y hy).2, h2⟩
      · rintro ⟨h1, h2, h3⟩
        exact ⟨fun y hy => ⟨h1 y hy, h2 y hy⟩, h3⟩
    · simp [h]

theorem Packed.isSet {s : List AMRange} (h : Packed s) : IsSet s := by
  unfold IsSet
  refine List.Pairwise.imp_of_mem ?_ h.2
  intro a b ha _ hab
  have := (AMRange.valid_iff a).1 (h.1 a ha)
  rw [AMRange.lt_iff]; omega

theorem IsSet.fromSorted {s : List AMRange} (h : IsSet s) :
    s.Pairwise (fun a b => a.from_ ≤ b.from_) := by
  refine List.Pairwise.imp ?_ h
  intro a b hab
  rw [AMRange.lt_iff] at hab; omega

/-! ## Range union -/

theorem AMRange.add_cases (a b : AMRange) (ha : a.valid = true) (hb : b.valid = true) :
    ((a.to_ < b.from_ ∨ b.to_ < a.from_) ∧ a.from_ = a.to_ ∧ a.add b = b) ∨
    ((a.to_ < b.from_ ∨ b.to_ < a.from_) ∧ a.from_ < a.to_ ∧ a.add b = ⟨a.to_, a.from_⟩) ∨
    ((b.from_ ≤ a.to_ ∧ a.from_ ≤ b.to_) ∧
      a.add b = ⟨min a.from_ b.from_, max a.to_ b.to_⟩) := by
  have hva := (AMRange.valid_iff a).1 ha
  have hvb := (AMRange.valid_iff b).1 hb
  unfold AMRange.add
  simp only [ha, hb, Bool.not_true, Bool.false_eq_true, if_false]
  by_cases hd : a.to_ < b.from_ ∨ a.from_ > b.to_
  · have hd2 : (decide (a.to_ < b.from_) || decide (a.from_ > b.to_)) = true := by
      simpa using hd
    rw [if_pos hd2]
    by_cases he : a.from_ = a.to_
    · left
      rw [if_pos he]
      exact ⟨by omega, he, rfl⟩
    · right; left
      rw [if_neg he]
      exact ⟨by omega, by omega, rfl⟩
  · have hd2 : ¬ (decide (a.to_ < b.from_) || decide (a.from_ > b.to_)) = true := by
      simpa using hd
    rw [if_neg hd2]
    right; right
    refine ⟨by omega, ?_⟩
    rw [AMRange.ext_iff2]
    constructor
    · show (if a.from_ > b.from_ then b.from_ else a.from_) = min a.from_ b.from_
      split_ifs <;> omega
    · show (if a.to_ < b.to_ then b.to_ else a.to_) = max a.to_ b.to_
      split_ifs <;> omega

/-! ## The function `pack` -/

theorem mem_packRun (l : List AMRange) (r : AMRange) (res : List AMRange) (y : AMRange) :
    y ∈ packRun l r res ↔ y ∈ res ∨ y ∈ packOut l r := by
  induction l generalizing r res with
  | nil => simp [packRun, packOut, mem_setInsert]; tauto
  | cons it rest ih =>
    unfold packRun packOut
    by_cases h1 : it.valid = true
    · by_cases h2 : (r.add it).valid = true
      · simp [h1, h2, ih]
      · simp [h1, h2, ih, mem_setInsert]; tauto
    · simp [h1, ih]

theorem packRun_isSet (l : List AMRange) (r : AMRange) (res : List AMRange)
    (h : IsSet res) : IsSet (packRun l r res) := by
  induction l generalizing r res with
  | nil => simpa [packRun] using setInsert_isSet r res h
  | cons it rest ih =>
    unfold packRun
    by_cases h1 : it.valid = true
    · by_cases h2 : (r.add it).valid = true
      · simpa [h1, h2] using ih _ _ h
      · simpa [h1, h2] using ih _ _ (setInsert_isSet r res h)
    · simpa [h1] using ih _ _ h

theorem mem_pack (s : List AMRange) (y : AMRange) : y ∈ pack s ↔ y ∈ packList s := by
  unfold pack
  induction s with
  | nil => simp [packStart, packList]
  | cons it rest ih =>
    unfold packStart packList
    by_cases h1 : it.valid = true
    · simp [h1, mem_packRun]
    · simp [h1, ih]

theorem pack_isSet (s : List AMRange) : IsSet (pack s) := by
  unfold pack
  induction s with
  | nil => simp [packStart, IsSet]
  | cons it rest ih =>
    unfold packStart
    by_cases h1 : it.valid = true
    · simpa [h1] using packRun_isSet (it :: rest) it [] (by simp [IsSet])
    · simpa [h1] using ih

theorem packOut_ne_nil (l : List AMRange) (r : AMRange) : packOut l r ≠ [] := by
  induction l generalizing r with
  | nil => simp [packOut]
  | cons it rest ih =>
    unfold packOut
    split_ifs <;> simp [ih]

/-- What `packRun` emits when the members come in container order: valid ranges, each
starting strictly after the end of the one before, all but the last non-empty. -/
theorem packOut_spec (l : List AMRange) (r : AMRange) (hr : r.valid = true)
    (hle : ∀ m ∈ l, r.from_ ≤ m.from_) (hs : l.Pairwise (fun a b => a.from_ ≤ b.from_)) :
    (∀ y ∈ packOut l r, y.valid = true ∧ r.from_ ≤ y.from_) ∧
      (packOut l r).Pairwise (fun a b => a.to_ < b.from_) ∧
      (∀ y ∈ (packOut l r).dropLast, y.nonEmpty = true) := by
  induction l generalizing r with
  | nil => simp [packOut, hr]
  | cons it rest ih =>
    rw [List.pairwise_cons] at hs
    have hit := hle it (List.mem_cons_self _ _)
    have hrest : ∀ m ∈ rest, r.from_ ≤ m.from_ := fun m hm => hle m (List.mem_cons_of_mem _ hm)
    unfold packOut
    by_cases h1 : it.valid = true
    · have hvr := (AMRange.valid_iff r).1 hr
      have hvi := (AMRange.valid_iff it).1 h1
      by_cases h2 : (r.add it).valid = true
      · simp only [h1, h2, Bool.not_true, Bool.false_eq_true, if_false, if_true]
        have hfrom : r.from_ ≤ (r.add it).from_ ∧ (r.add it).from_ ≤ it.from_ := by
          rcases AMRange.add_cases r it hr h1 with ⟨_, _, h⟩ | ⟨_, _, h⟩ | ⟨_, h⟩ <;>
            rw [h] <;> simp <;> omega
        obtain ⟨i1, i2, i3⟩ := ih (r.add it) h2
          (fun m hm => le_trans hfrom.2 (hs.1 m hm)) hs.2
        exact ⟨fun y hy => ⟨(i1 y hy).1, le_trans hfrom.1 (i1 y hy).2⟩, i2, i3⟩
      · simp only [h1, h2, Bool.not_true, Bool.false_eq_true, if_false]
        have hdis : r.to_ < it.from_ ∧ r.from_ < r.to_ := by
          rcases AMRange.add_cases r it hr h1 with ⟨_, _, h⟩ | ⟨hd, hne, _⟩ | ⟨_, h⟩
          · rw [h] at h2; exact absurd h1 h2
          · omega
          · rw [h, AMRange.valid_iff] at h2
            simp at h2
            omega
        obtain ⟨i1, i2, i3⟩ := ih it h1 hs.1 hs.2
        refine ⟨?_, ?_, ?_⟩
        · intro y hy
          rcases List.mem_cons.1 hy with rfl | hy
          · exact ⟨hr, le_refl _⟩
          · exact ⟨(i1 y hy).1, by have := (i1 y hy).2; omega⟩
        · rw [List.pairwise_cons]
          exact ⟨fun y hy => by have := (i1 y hy).2; omega, i2⟩
        · intro y hy
          rw [List.dropLast_cons_of_ne_nil (packOut_ne_nil rest it)] at hy
          rcases List.mem_cons.1 hy with rfl | hy
          · rw [AMRange.nonEmpty_iff]; exact hdis.2
          · exact i3 y hy
    · simp only [h1, Bool.not_false, if_true]
      exact ih r hr hrest hs.2

theorem packList_spec (s : List AMRange) (hs : IsSet s) :
    Packed (packList s) ∧ ∀ y ∈ (packList s).dropLast, y.nonEmpty = true := by
  induction s with
  | nil => simp [packList, Packed]
  | cons it rest ih =>
    unfold packList
    by_cases h1 : it.valid = true
    · simp only [h1, Bool.not_true, Bool.false_eq_true, if_false]
      have hsorted := IsSet.fromSorted hs
      have hle : ∀ m ∈ it :: rest, it.from_ ≤ m.from_ := by
        intro m hm
        rcases List.mem_cons.1 hm with rfl | hm
        · exact le_refl _
        · exact (List.pairwise_cons.1 hsorted).1 m hm
      obtain ⟨i1, i2, i3⟩ := packOut_spec (it :: rest) it h1 hle hsorted
      exact ⟨⟨fun y hy => (i1 y hy).1, i2⟩, i3⟩
    · simp only [h1, Bool.not_false, if_true]
      exact ih (List.pairwise_cons.1 hs).2

/-- On a set, `pack` returns exactly the sequence it emits. -/
theorem pack_eq_packList (s : List AMRange) (hs : IsSet s) : pack s = packList s :=
  isSet_ext (pack_isSet s) (packList_spec s hs).1.isSet (mem_pack s)

theorem Covers.nil (x : Int) : ¬ Covers [] x := by
  simp [Covers]

theorem Covers.cons (a : AMRange) (l : List AMRange) (x : Int) :
    Covers (a :: l) x ↔ a.inT x = true ∨ Covers l x := by
  simp [Covers]

theorem Covers.congr {a b : List AMRange} (h : ∀ y, y ∈ a ↔ y ∈ b) (x : Int) :
    Covers a x ↔ Covers b x := by
  simp [Covers, h]

theorem AMRange.inT_of_not_valid {a : AMRange} (h : ¬ a.valid = true) (x : Int) :
    ¬ a.inT x = true := by
  rw [AMRange.valid_iff] at h
  rw [AMRange.inT_iff]; omega

theorem AMRange.add_self (a : AMRange) : a.add a = a := by
  unfold AMRange.add
  by_cases h : a.valid = true
  · have := (AMRange.valid_iff a).1 h
    have hd : ¬ (decide (a.to_ < a.from_) || decide (a.from_ > a.to_)) = true := by
      simp; omega
    simp only [h, Bool.not_true, Bool.false_eq_true, if_false, hd]
    simp
  · simp [h]

theorem packOut_covers (l : List AMRange) (r : AMRange) (hr : r.valid = true) (x : Int) :
    Covers (packOut l r) x ↔ r.inT x = true ∨ Covers l x := by
  induction l generalizing r with
  | nil => simp [packOut, Covers]
  | cons it rest ih =>
    unfold packOut
    rw [Covers.cons]
    by_cases h1 : it.valid = true
    · by_cases h2 : (r.add it).valid = true
      · simp only [h1, h2, Bool.not_true, Bool.false_eq_true, if_false, if_true]
        rw [ih _ h2]
        have key : (r.add it).inT x = true ↔ r.inT x = true ∨ it.inT x = true := by
          rcases AMRange.add_cases r it hr h1 with ⟨_, he, h⟩ | ⟨_, hne, h⟩ | ⟨ht, h⟩
          · rw [h]; simp only [AMRange.inT_iff]; omega
          · rw [h, AMRange.valid_iff] at h2; simp at h2; omega
          · rw [h]; simp only [AMRange.inT_iff]; omega
        rw [key]; tauto
      · simp only [h1, h2, Bool.not_true, Bool.false_eq_true, if_false]
        rw [Covers.cons, ih _ h1]
    · simp only [h1, Bool.not_false, if_true]
      rw [ih _ hr]
      have := AMRange.inT_of_not_valid h1 x
      tauto

theorem packList_covers (s : List AMRange) (x : Int) : Covers (packList s) x ↔ Covers s x := by
  induction s with
  | nil => simp [packList]
  | cons it rest ih =>
    unfold packList
    by_cases h1 : it.valid = true
    · simp only [h1, Bool.not_true, Bool.false_eq_true, if_false]
      rw [packOut_covers _ _ h1, Covers.cons]
      tauto
    · simp only [h1, Bool.not_false, if_true]
      rw [ih, Covers.cons]
      have := AMRange.inT_of_not_valid h1 x
      tauto

theorem pack_covers (s : List AMRange) (x : Int) : Covers (pack s) x ↔ Covers s x :=
  (Covers.congr (mem_pack s) x).trans (packList_covers s x)

theorem pack_packed (s : List AMRange) (hs : IsSet s) : Packed (pack s) := by
  rw [pack_eq_packList s hs]; exact (packList_spec s hs).1

theorem packOut_fix (rest : List AMRange) (r : AMRange) (hp : Packed (r :: rest))
    (hne : ∀ y ∈ (r :: rest).dropLast, y.nonEmpty = true) : packOut rest r = r :: rest := by
  induction rest generalizing r with
  | nil => simp [packOut]
  | cons it rest ih =>
    have hr : r.valid = true := hp.1 r (List.mem_cons_self _ _)
    have h1 : it.valid = true := hp.1 it (by simp)
    have hgap : r.to_ < it.from_ := (List.pairwise_cons.1 hp.2).1 it (List.mem_cons_self _ _)
    have hrne : r.from_ < r.to_ := (AMRange.nonEmpty_iff r).1 (hne r (by simp))
    have hvi := (AMRange.valid_iff it).1 h1
    have h2 : ¬ (r.add it).valid = true := by
      rcases AMRange.add_cases r it hr h1 with ⟨_, he, _⟩ | ⟨_, _, h⟩ | ⟨ht, _⟩
      · omega
      · rw [h, AMRange.valid_iff]; simp; omega
      · omega
    have hp2 : Packed (it :: rest) :=
      ⟨fun y hy => hp.1 y (List.mem_cons_of_mem _ hy), (List.pairwise_cons.1 hp.2).2⟩
    have hne2 : ∀ y ∈ (it :: rest).dropLast, y.nonEmpty = true := by
      intro y hy
      apply hne y
      rw [List.dropLast_cons_of_ne_nil (List.cons_ne_nil _ _)]
      exact List.mem_cons_of_mem _ hy
    unfold packOut
    simp only [h1, h2, Bool.not_true, Bool.false_eq_true, if_false]
    rw [ih it hp2 hne2]

theorem packList_fix (s : List AMRange) (hp : Packed s)
    (hne : ∀ y ∈ s.dropLast, y.nonEmpty = true) : packList s = s := by
  cases s with
  | nil => simp [packList]
  | cons it rest =>
    have h1 : it.valid = true := hp.1 it (List.mem_cons_self _ _)
    unfold packList
    simp only [h1, Bool.not_true, Bool.false_eq_true, if_false]
    have h3 : packOut (it :: rest) it = packOut rest it := by
      rw [packOut]
      simp only [h1, Bool.not_true, Bool.false_eq_true, if_false, AMRange.add_self, if_true]
    rw [h3]
    exact packOut_fix rest it hp hne

theorem pack_pack (s : List AMRange) (hs : IsSet s) : pack (pack s) = pack s := by
  have h := packList_spec s hs
  rw [pack_eq_packList s hs, pack_eq_packList _ h.1.isSet]
  exact packList_fix _ h.1 h.2

/-! ## Set union -/

theorem mem_merge (xs ys : List AMRange) (y : AMRange) :
    y ∈ merge xs ys ↔ y ∈ xs ∨ y ∈ ys := by
  induction xs, ys using merge.induct with
  | case1 ys => simp [merge]
  | case2 x xs => simp [merge]
  | case3 x xs z zs h ih => rw [merge]; simp [h, ih]; tauto
  | case4 x xs z zs h ih => rw [merge]; simp [h, ih]; tauto

theorem mem_setAdd_input (left right : List AMRange) (y : AMRange) :
    y ∈ insertAll (merge left right) left ↔ y ∈ left ∨ y ∈ right := by
  rw [mem_insertAll, mem_merge]; tauto

/-! ## Set difference: the loop and the sequence it emits -/

theorem advanceLeft_fst (ls : List AMRange) (r : AMRange) (res : List AMRange) :
    (advanceLeft ls r res).1 = (advanceLeft ls r []).1 := by
  cases ls <;> simp [advanceLeft]

theorem mem_advanceLeft (ls : List AMRange) (r : AMRange) (res : List AMRange) (y : AMRange) :
    y ∈ (advanceLeft ls r res).2 ↔ y ∈ res ∨ y ∈ (advanceLeft ls r []).2 := by
  cases ls with
  | nil => simp [advanceLeft]
  | cons l2 ls =>
    by_cases h : r.nonEmpty = true
    · simp [advanceLeft, h, mem_setInsert, setInsert]; tauto
    · simp [advanceLeft, h]

theorem advanceLeft_isSet (ls : List AMRange) (r : AMRange) (res : List AMRange)
    (h : IsSet res) : IsSet (advanceLeft ls r res).2 := by
  cases ls with
  | nil => simpa [advanceLeft] using h
  | cons l2 ls =>
    by_cases hn : r.nonEmpty = true
    · simpa [advanceLeft, hn] using setInsert_isSet r res h
    · simpa [advanceLeft, hn] using h

theorem subStep_fst (r q : AMRange) (res : List AMRange) :
    (subStep r q res).1 = (subStep r q []).1 := by
  unfold subStep
  by_cases h1 : (r.sub q).valid = true <;> simp [h1]

theorem mem_subStep (r q : AMRange) (res : List AMRange) (y : AMRange) :
    y ∈ (subStep r q res).2 ↔ y ∈ res ∨ y ∈ (subStep r q []).2 := by
  unfold subStep
  by_cases h1 : (r.sub q).valid = true
  · simp [h1]
  · by_cases h2 : (AMRange.mk r.from_ q.from_).nonEmpty = true
    · simp [h1, h2, mem_setInsert, setInsert]; tauto
    · simp [h1, h2]

theorem subStep_isSet (r q : AMRange) (res : List AMRange) (h : IsSet res) :
    IsSet (subStep r q res).2 := by
  unfold subStep
  by_cases h1 : (r.sub q).valid = true
  · simpa [h1] using h
  · by_cases h2 : (AMRange.mk r.from_ q.from_).nonEmpty = true
    · simpa [h1, h2] using setInsert_isSet _ res h
    · simpa [h1, h2] using h

theorem mem_subLoop (L R : List AMRange) (r : AMRange) (res : List AMRange) (y : AMRange) :
    y ∈ subFinal (subLoop L R r res) ↔ y ∈ res ∨ y ∈ subOut L R r := by
  induction L generalizing R r res with
  | nil =>
    induction R with
    | nil =>
      rw [subLoop, subOut]
      by_cases h : r.nonEmpty = true
      · simp [subFinal, h, mem_setInsert]; tauto
      · simp [subFinal, h]
    | cons q rs ih => rw [subLoop, subOut]; exact ih
  | cons l ls ihL =>
    induction R generalizing r res with
    | nil =>
      rw [subLoop, subOut, ihL, mem_advanceLeft, advanceLeft_fst, List.mem_append]
      tauto
    | cons q rs ihR =>
      rw [subLoop, subOut]
      by_cases h : l.to_ > q.to_
      · simp only [h, if_true]
        rw [ihR, mem_subStep, subStep_fst, List.mem_append]
        tauto
      · simp only [h, if_false]
        rw [ihL, mem_advanceLeft, advanceLeft_fst, mem_subStep, subStep_fst,
          List.mem_append, List.mem_append]
        tauto

theorem subLoop_isSet (L R : List AMRange) (r : AMRange) (res : List AMRange)
    (hres : IsSet res) : IsSet (subFinal (subLoop L R r res)) := by
  induction L generalizing R r res with
  | nil =>
    induction R with
    | nil =>
      rw [subLoop]
      by_cases h : r.nonEmpty = true
      · simpa [subFinal, h] using setInsert_isSet r res hres
      · simpa [subFinal, h] using hres
    | cons q rs ih => rw [subLoop]; exact ih
  | cons l ls ihL =>
    induction R generalizing r res with
    | nil => rw [subLoop]; exact ihL _ _ _ (advanceLeft_isSet _ _ _ hres)
    | cons q rs ihR =>
      rw [subLoop]
      by_cases h : l.to_ > q.to_
      · simp only [h, if_true]
        exact ihR _ _ (subStep_isSet _ _ _ hres)
      · simp only [h, if_false]
        exact ihL _ _ _ (advanceLeft_isSet _ _ _ (subStep_isSet _ _ _ hres))

/-! ## Range subtraction -/

theorem AMRange.sub_cases (a b : AMRange) (ha : a.valid = true) (hb : b.valid = true) :
    (a.from_ < b.from_ ∧ b.to_ < a.to_ ∧ a.sub b = ⟨a.to_, a.from_⟩) ∨
    (a.from_ < b.from_ ∧ a.to_ ≤ b.to_ ∧ b.from_ < a.to_ ∧ a.sub b = ⟨a.from_, b.from_⟩) ∨
    (a.from_ < b.from_ ∧ a.to_ ≤ b.to_ ∧ a.to_ ≤ b.from_ ∧ a.sub b = a) ∨
    (b.from_ ≤ a.from_ ∧ a.to_ < b.to_ ∧ a.sub b = ⟨a.from_, a.from_⟩) ∨
    (b.from_ ≤ a.from_ ∧ b.to_ ≤ a.to_ ∧ a.from_ < b.to_ ∧ a.sub b = ⟨b.to_, a.to_⟩) ∨
    (b.from_ ≤ a.from_ ∧ b.to_ ≤ a.to_ ∧ b.to_ ≤ a.from_ ∧ a.sub b = a) := by
  have hsub : a.sub b =
      if a.from_ < b.from_ then
        if a.to_ > b.to_ then ⟨a.to_, a.from_⟩
        else if a.to_ > b.from_ then ⟨a.from_, b.from_⟩
        else a
      else
        if a.to_ < b.to_ then ⟨a.from_, a.from_⟩
        else if a.from_ < b.to_ then ⟨b.to_, a.to_⟩
        else a := by
    unfold AMRange.sub
    simp only [ha, hb, Bool.not_true, Bool.false_eq_true, if_false]
  rw [hsub]
  by_cases h1 : a.from_ < b.from_
  · rw [if_pos h1]
    by_cases h2 : a.to_ > b.to_
    · rw [if_pos h2]; left; exact ⟨h1, h2, rfl⟩
    · rw [if_neg h2]
      by_cases h3 : a.to_ > b.from_
      · rw [if_pos h3]; right; left; exact ⟨h1, by omega, h3, rfl⟩
      · rw [if_neg h3]; right; right; left; exact ⟨h1, by omega, by omega, rfl⟩
  · rw [if_neg h1]
    by_cases h2 : a.to_ < b.to_
    · rw [if_pos h2]; right; right; right; left; exact ⟨by omega, h2, rfl⟩
    · rw [if_neg h2]
      by_cases h3 : a.from_ < b.to_
      · rw [if_pos h3]; right; right; right; right; left; exact ⟨by omega, by omega, h3, rfl⟩
      · rw [if_neg h3]
        right; right; right; right; right; exact ⟨by omega, by omega, by omega, rfl⟩

theorem subStep_of_valid (r q : AMRange) (h : (r.sub q).valid = true) :
    subStep r q [] = (r.sub q, []) := by
  unfold subStep
  simp [h]

theorem subStep_of_split (r q : AMRange) (h : ¬ (r.sub q).valid = true)
    (hlt : r.from_ < q.from_) :
    subStep r q [] = (⟨q.to_, r.to_⟩, [⟨r.from_, q.from_⟩]) := by
  have hne : (AMRange.mk r.from_ q.from_).nonEmpty = true := by
    rw [AMRange.nonEmpty_iff]; exact hlt
  unfold subStep
  simp [h, hne, setInsert]

/-- One subtraction step on valid ranges: either `q` splits `r` (the before-piece is
emitted and the after-piece kept), or the subtraction is valid and is the exact
difference of the two ranges. -/
theorem subStep_spec (r q : AMRange) (hr : r.valid = true) (hq : q.valid = true) :
    (r.from_ < q.from_ ∧ q.to_ < r.to_ ∧ (subStep r q []).1 = ⟨q.to_, r.to_⟩ ∧
        (subStep r q []).2 = [⟨r.from_, q.from_⟩]) ∨
    (¬ (r.from_ < q.from_ ∧ q.to_ < r.to_) ∧ (subStep r q []).2 = [] ∧
        (subStep r q []).1.from_ ≤ (subStep r q []).1.to_ ∧
        r.from_ ≤ (subStep r q []).1.from_ ∧ (subStep r q []).1.to_ ≤ r.to_ ∧
        (q.to_ < r.to_ → (subStep r q []).1.to_ = r.to_) ∧
        ∀ x, (subStep r q []).1.inT x = true ↔ r.inT x = true ∧ ¬ q.inT x = true) := by
  have hvr := (AMRange.valid_iff r).1 hr
  have hvq := (AMRange.valid_iff q).1 hq
  rcases AMRange.sub_cases r q hr hq with ⟨h1, h2, h⟩ | ⟨h1, h2, h3, h⟩ | ⟨h1, h2, h3, h⟩ |
    ⟨h1, h2, h⟩ | ⟨h1, h2, h3, h⟩ | ⟨h1, h2, h3, h⟩
  · left
    have hinv : ¬ (r.sub q).valid = true := by
      rw [h, AMRange.valid_iff]; dsimp only; omega
    rw [subStep_of_split r q hinv h1]
    exact ⟨h1, h2, rfl, rfl⟩
  all_goals
    right
    have hval : (r.sub q).valid = true := by
      rw [h, AMRange.valid_iff]
      all_goals first | omega | (dsimp only; omega)
    rw [subStep_of_valid r q hval, h]
    refine ⟨by omega, rfl, ?_, ?_, ?_, ?_, ?_⟩
    all_goals
      try simp only [AMRange.inT_iff]
      first | omega | (intro x; omega) | (intro _; trivial)

theorem Covers.append (a b : List AMRange) (x : Int) :
    Covers (a ++ b) x ↔ Covers a x ∨ Covers b x := by
  simp only [Covers, List.mem_append]
  constructor
  · rintro ⟨r, hr | hr, h⟩
    · exact Or.inl ⟨r, hr, h⟩
    · exact Or.inr ⟨r, hr, h⟩
  · rintro (⟨r, hr, h⟩ | ⟨r, hr, h⟩)
    · exact ⟨r, Or.inl hr, h⟩
    · exact ⟨r, Or.inr hr, h⟩

/-- The ranges inserted by `if (r.nonEmpty()) result.insert(r)`. -/
theorem emit_covers (r : AMRange) (x : Int) :
    Covers (if r.nonEmpty = true then [r] else []) x ↔ r.inT x = true := by
  by_cases h : r.nonEmpty = true
  · simp [h, Covers]
  · simp only [h, if_false]
    rw [AMRange.nonEmpty_iff] at h
    have : ¬ r.inT x = true := by rw [AMRange.inT_iff]; omega
    simp [Covers, this]

theorem advanceLeft_cons (l2 : AMRange) (ls : List AMRange) (r : AMRange) :
    advanceLeft (l2 :: ls) r [] = (l2, if r.nonEmpty = true then [r] else []) := by
  by_cases h : r.nonEmpty = true <;> simp [advanceLeft, h, setInsert]

theorem advanceLeft_nil (r : AMRange) : advanceLeft [] r [] = (r, []) := rfl

theorem subOut_nil (R : List AMRange) (r : AMRange) :
    subOut [] R r = if r.nonEmpty = true then [r] else [] := by
  induction R with
  | nil => rw [subOut]
  | cons q rs ih => rw [subOut]; exact ih

theorem Packed.tail {l : AMRange} {ls : List AMRange} (h : Packed (l :: ls)) : Packed ls :=
  ⟨fun y hy => h.1 y (List.mem_cons_of_mem _ hy), (List.pairwise_cons.1 h.2).2⟩

theorem Packed.covers_tail {l : AMRange} {ls : List AMRange} (h : Packed (l :: ls)) {x : Int}
    (hx : Covers ls x) : l.to_ < x := by
  obtain ⟨y, hy, hin⟩ := hx
  have h1 := (List.pairwise_cons.1 h.2).1 y hy
  rw [AMRange.inT_iff] at hin
  omega

theorem subStep_covers (r q : AMRange) (hr : r.valid = true) (hq : q.valid = true) (x : Int) :
    (Covers (subStep r q []).2 x ∨ (subStep r q []).1.inT x = true ↔
        r.inT x = true ∧ ¬ q.inT x = true) ∧
      (Covers (subStep r q []).2 x → x < q.from_) := by
  have hvr := (AMRange.valid_iff r).1 hr
  have hvq := (AMRange.valid_iff q).1 hq
  rcases subStep_spec r q hr hq with ⟨s1, s2, s3, s4⟩ | ⟨s1, s2, s3, s4, s5, s6, s7⟩
  · rw [s3, s4]
    simp only [Covers, List.mem_singleton, exists_eq_left, AMRange.inT_iff]
    constructor <;> omega
  · rw [s2]
    simp only [Covers.nil, false_or, false_imp_iff, and_true]
    exact s7 x

theorem subStep_inv (r q : AMRange) (hr : r.valid = true) (hq : q.valid = true) :
    (subStep r q []).1.from_ ≤ (subStep r q []).1.to_ ∧
      r.from_ ≤ (subStep r q []).1.from_ ∧ (subStep r q []).1.to_ ≤ r.to_ ∧
      (q.to_ < r.to_ → (subStep r q []).1.to_ = r.to_) := by
  have hvr := (AMRange.valid_iff r).1 hr
  have hvq := (AMRange.valid_iff q).1 hq
  rcases subStep_spec r q hr hq with ⟨s1, s2, s3, s4⟩ | ⟨s1, s2, s3, s4, s5, s6, s7⟩
  · rw [s3]; dsimp only
    exact ⟨by omega, by omega, by omega, fun _ => rfl⟩
  · exact ⟨s3, s4, s5, s6⟩

theorem subOut_covers_aux1 {E R1 Rr Q CL CR : Prop} (f1 : E ∨ R1 ↔ Rr ∧ ¬ Q)
    (f3 : E → ¬ CR) (f4 : CL → ¬ Q) :
    (E ∨ ((R1 ∨ CL) ∧ ¬ CR)) ↔ ((Rr ∨ CL) ∧ ¬ (Q ∨ CR)) := by
  tauto

theorem subOut_covers_aux2 {E R1 Rr Q X CR : Prop} (f1 : E ∨ R1 ↔ Rr ∧ ¬ Q)
    (f3 : Rr → ¬ CR) :
    (E ∨ (R1 ∨ (X ∧ ¬ (Q ∨ CR)))) ↔ ((Rr ∨ X) ∧ ¬ (Q ∨ CR)) := by
  tauto

theorem subOut_covers_aux3 {E R1 Rr Q N CR : Prop} (f1 : E ∨ R1 ↔ Rr ∧ ¬ Q)
    (f3 : Rr → ¬ CR) (hN : ¬ N) :
    (E ∨ R1) ↔ ((Rr ∨ N) ∧ ¬ (Q ∨ CR)) := by
  tauto

/-- Coverage of the sequence emitted by the loop of `operator-` on packed operands:
the points of the remainder `r` and of the left members after `lit`, minus the points
of the right members from `rit` on. -/
theorem subOut_covers (ls : List AMRange) (l : AMRange) (R : List AMRange) (r : AMRange)
    (hL : Packed (l :: ls)) (hR : Packed R) (hto : r.to_ = l.to_) (hr : r.from_ ≤ r.to_)
    (x : Int) :
    Covers (subOut (l :: ls) R r) x ↔ (r.inT x = true ∨ Covers ls x) ∧ ¬ Covers R x := by
  induction ls generalizing l R r with
  | nil =>
    induction R generalizing r with
    | nil =>
      rw [subOut, advanceLeft_nil, subOut_nil, List.nil_append, emit_covers]
      simp [Covers.nil]
    | cons q rs ihR =>
      have hq : q.valid = true := hR.1 q (List.mem_cons_self _ _)
      have hrv : r.valid = true := (AMRange.valid_iff r).2 hr
      have hvq := (AMRange.valid_iff q).1 hq
      have hCR : Covers rs x → q.to_ < x := fun h => hR.covers_tail h
      obtain ⟨f1, f2⟩ := subStep_covers r q hrv hq x
      obtain ⟨i1, i2, i3, i4⟩ := subStep_inv r q hrv hq
      have hRr : r.inT x = true → x < r.to_ := fun h => ((AMRange.inT_iff r x).1 h).2
      rw [subOut, Covers.cons]
      by_cases h : l.to_ > q.to_
      · simp only [h, if_true]
        have hto1 : (subStep r q []).1.to_ = l.to_ := by rw [i4 (by omega)]; exact hto
        have e := ihR (subStep r q []).1 hR.tail hto1 i1
        rw [Covers.append]
        refine (or_congr Iff.rfl e).trans ?_
        have f3 : Covers (subStep r q []).2 x → ¬ Covers rs x := fun h1 h2 => by
          have := f2 h1; have := hCR h2; omega
        exact subOut_covers_aux1 f1 f3 (fun h => absurd h (Covers.nil x))
      · simp only [h, if_false]
        rw [advanceLeft_nil, subOut_nil, List.nil_append, Covers.append, emit_covers]
        have f3 : r.inT x = true → ¬ Covers rs x := fun h1 h2 => by
          have := hRr h1; have := hCR h2; omega
        exact subOut_covers_aux3 f1 f3 (Covers.nil x)
  | cons l2 ls ihL =>
    have hL2 : Packed (l2 :: ls) := hL.tail
    have hl2 : l2.from_ ≤ l2.to_ := (AMRange.valid_iff l2).1 (hL2.1 l2 (List.mem_cons_self _ _))
    induction R generalizing r with
    | nil =>
      rw [subOut, advanceLeft_cons, Covers.append, emit_covers, ihL l2 [] l2 hL2 hR rfl hl2,
        Covers.cons]
      simp [Covers.nil]
    | cons q rs ihR =>
      have hq : q.valid = true := hR.1 q (List.mem_cons_self _ _)
      have hrv : r.valid = true := (AMRange.valid_iff r).2 hr
      have hvq := (AMRange.valid_iff q).1 hq
      have hCR : Covers rs x → q.to_ < x := fun h => hR.covers_tail h
      have hCL : Covers (l2 :: ls) x → l.to_ < x := fun h => hL.covers_tail h
      obtain ⟨f1, f2⟩ := subStep_covers r q hrv hq x
      obtain ⟨i1, i2, i3, i4⟩ := subStep_inv r q hrv hq
      have hRr : r.inT x = true → x < r.to_ := fun h => ((AMRange.inT_iff r x).1 h).2
      have hQ : q.inT x = true → x < q.to_ := fun h => ((AMRange.inT_iff q x).1 h).2
      rw [subOut, Covers.cons (a := q)]
      by_cases h : l.to_ > q.to_
      · simp only [h, if_true]
        have hto1 : (subStep r q []).1.to_ = l.to_ := by rw [i4 (by omega)]; exact hto
        have e := ihR (subStep r q []).1 hR.tail hto1 i1
        rw [Covers.append]
        refine (or_congr Iff.rfl e).trans ?_
        have f3 : Covers (subStep r q []).2 x → ¬ Covers rs x := fun h1 h2 => by
          have := f2 h1; have := hCR h2; omega
        have f4 : Covers (l2 :: ls) x → ¬ q.inT x = true := fun h1 h2 => by
          have := hCL h1; have := hQ h2; omega
        exact subOut_covers_aux1 f1 f3 f4
      · simp only [h, if_false]
        rw [advanceLeft_cons, Covers.append, Covers.append, emit_covers,
          ihL l2 (q :: rs) l2 hL2 hR rfl hl2, Covers.cons (a := q), Covers.cons (a := l2)]
        have f3 : r.inT x = true → ¬ Covers rs x := fun h1 h2 => by
          have := hRr h1; have := hCR h2; omega
        exact subOut_covers_aux2 f1 f3

/-! ## Set difference: packedness of the emitted sequence -/

theorem pairwise_append_bound (a b : List AMRange) (bound : Int)
    (ha : a.Pairwise (fun u v => u.to_ < v.from_)) (hb : b.Pairwise (fun u v => u.to_ < v.from_))
    (h1 : ∀ y ∈ a, y.to_ < bound) (h2 : ∀ y ∈ b, bound ≤ y.from_) :
    (a ++ b).Pairwise (fun u v => u.to_ < v.from_) := by
  rw [List.pairwise_append]
  refine ⟨ha, hb, fun u hu v hv => ?_⟩
  have := h1 u hu
  have := h2 v hv
  omega

theorem emit_spec (r : AMRange) :
    (if r.nonEmpty = true then [r] else []).Pairwise (fun u v => u.to_ < v.from_) ∧
      ∀ y ∈ (if r.nonEmpty = true then [r] else []), y = r ∧ r.from_ < r.to_ := by
  by_cases h : r.nonEmpty = true
  · simp only [h, if_true, List.pairwise_singleton, List.mem_singleton, true_and]
    intro y hy
    exact ⟨hy, (AMRange.nonEmpty_iff r).1 h⟩
  · simp [h]

theorem subStep_emit (r q : AMRange) (hr : r.valid = true) (hq : q.valid = true)
    (hne : q.from_ < q.to_) :
    (subStep r q []).2.Pairwise (fun u v => u.to_ < v.from_) ∧
      ∀ y ∈ (subStep r q []).2,
        y.from_ < y.to_ ∧ r.from_ ≤ y.from_ ∧ y.to_ < (subStep r q []).1.from_ := by
  rcases subStep_spec r q hr hq with ⟨s1, s2, s3, s4⟩ | ⟨s1, s2, s3, s4, s5, s6, s7⟩
  · rw [s3, s4]
    simp only [List.pairwise_singleton, List.mem_singleton, true_and]
    intro y hy
    subst hy
    dsimp only
    omega
  · rw [s2]; simp

theorem subStep_emit_nil (r q : AMRange) (hr : r.valid = true) (hq : q.valid = true)
    (h : r.to_ ≤ q.to_) : (subStep r q []).2 = [] := by
  rcases subStep_spec r q hr hq with ⟨s1, s2, s3, s4⟩ | ⟨s1, s2, s3, s4, s5, s6, s7⟩
  · omega
  · exact s2

/-- Packedness of the sequence emitted by the loop of `operator-` on packed operands,
when no right member from `rit` on is empty: the emitted ranges are non-empty, start
at or after `r.from`, and each starts strictly after the end of the one before. -/
theorem subOut_packed (ls : List AMRange) (l : AMRange) (R : List AMRange) (r : AMRange)
    (hL : Packed (l :: ls)) (hR : Packed R) (hne : ∀ q ∈ R, q.from_ < q.to_)
    (hto : r.to_ = l.to_) (hr : r.from_ ≤ r.to_) :
    (subOut (l :: ls) R r).Pairwise (fun u v => u.to_ < v.from_) ∧
      ∀ y ∈ subOut (l :: ls) R r, y.from_ < y.to_ ∧ r.from_ ≤ y.from_ := by
  induction ls generalizing l R r with
  | nil =>
    induction R generalizing r with
    | nil =>
      rw [subOut, advanceLeft_nil, subOut_nil, List.nil_append]
      refine ⟨(emit_spec r).1, fun y hy => ?_⟩
      obtain ⟨rfl, h⟩ := (emit_spec r).2 y hy
      exact ⟨h, le_refl _⟩
    | cons q rs ihR =>
      have hq : q.valid = true := hR.1 q (List.mem_cons_self _ _)
      have hrv : r.valid = true := (AMRange.valid_iff r).2 hr
      have hqne : q.from_ < q.to_ := hne q (List.mem_cons_self _ _)
      obtain ⟨i1, i2, i3, i4⟩ := subStep_inv r q hrv hq
      obtain ⟨e1, e2⟩ := subStep_emit r q hrv hq hqne
      rw [subOut]
      by_cases h : l.to_ > q.to_
      · simp only [h, if_true]
        have hto1 : (subStep r q []).1.to_ = l.to_ := by rw [i4 (by omega)]; exact hto
        obtain ⟨p1, p2⟩ := ihR (subStep r q []).1 hR.tail
          (fun q hq => hne q (List.mem_cons_of_mem _ hq)) hto1 i1
        refine ⟨pairwise_append_bound _ _ (subStep r q []).1.from_ e1 p1
          (fun y hy => (e2 y hy).2.2) (fun y hy => (p2 y hy).2), fun y hy => ?_⟩
        rcases List.mem_append.1 hy with hy | hy
        · exact ⟨(e2 y hy).1, (e2 y hy).2.1⟩
        · exact ⟨(p2 y hy).1, le_trans i2 (p2 y hy).2⟩
      · simp only [h, if_false]
        rw [subStep_emit_nil r q hrv hq (by omega), advanceLeft_nil, subOut_nil,
          List.nil_append, List.nil_append]
        refine ⟨(emit_spec _).1, fun y hy => ?_⟩
        obtain ⟨rfl, hy2⟩ := (emit_spec _).2 y hy
        exact ⟨hy2, i2⟩
  | cons l2 ls ihL =>
    have hL2 : Packed (l2 :: ls) := hL.tail
    have hl2 : l2.from_ ≤ l2.to_ := (AMRange.valid_iff l2).1 (hL2.1 l2 (List.mem_cons_self _ _))
    have hgap : l.to_ < l2.from_ := (List.pairwise_cons.1 hL.2).1 l2 (List.mem_cons_self _ _)
    induction R generalizing r with
    | nil =>
      rw [subOut, advanceLeft_cons]
      obtain ⟨p1, p2⟩ := ihL l2 [] l2 hL2 hR hne rfl hl2
      refine ⟨pairwise_append_bound _ _ l2.from_ (emit_spec r).1 p1 (fun y hy => ?_)
        (fun y hy => (p2 y hy).2), fun y hy => ?_⟩
      · obtain ⟨rfl, _⟩ := (emit_spec r).2 y hy
        omega
      · rcases List.mem_append.1 hy with hy | hy
        · obtain ⟨rfl, h⟩ := (emit_spec r).2 y hy
          exact ⟨h, le_refl _⟩
        · have := (p2 y hy).2
          exact ⟨(p2 y hy).1, by omega⟩
    | cons q rs ihR =>
      have hq : q.valid = true := hR.1 q (List.mem_cons_self _ _)
      have hrv : r.valid = true := (AMRange.valid_iff r).2 hr
      have hqne : q.from_ < q.to_ := hne q (List.mem_cons_self _ _)
      obtain ⟨i1, i2, i3, i4⟩ := subStep_inv r q hrv hq
      obtain ⟨e1, e2⟩ := subStep_emit r q hrv hq hqne
      rw [subOut]
      by_cases h : l.to_ > q.to_
      · simp only [h, if_true]
        have hto1 : (subStep r q []).1.to_ = l.to_ := by rw [i4 (by omega)]; exact hto
        obtain ⟨p1, p2⟩ := ihR (subStep r q []).1 hR.tail
          (fun q hq => hne q (List.mem_cons_of_mem _ hq)) hto1 i1
        refine ⟨pairwise_append_bound _ _ (subStep r q []).1.from_ e1 p1
          (fun y hy => (e2 y hy).2.2) (fun y hy => (p2 y hy).2), fun y hy => ?_⟩
        rcases List.mem_append.1 hy with hy | hy
        · exact ⟨(e2 y hy).1, (e2 y hy).2.1⟩
        · exact ⟨(p2 y hy).1, le_trans i2 (p2 y hy).2⟩
      · simp only [h, if_false]
        rw [subStep_emit_nil r q hrv hq (by omega), advanceLeft_cons, List.nil_append]
        obtain ⟨p1, p2⟩ := ihL l2 (q :: rs) l2 hL2 hR hne rfl hl2
        refine ⟨pairwise_append_bound _ _ l2.from_ (emit_spec _).1 p1 (fun y hy => ?_)
          (fun y hy => (p2 y hy).2), fun y hy => ?_⟩
        · obtain ⟨rfl, _⟩ := (emit_spec _).2 y hy
          omega
        · rcases List.mem_append.1 hy with hy | hy
          · obtain ⟨rfl, hy2⟩ := (emit_spec _).2 y hy
            exact ⟨hy2, i2⟩
          · have := (p2 y hy).2
            exact ⟨(p2 y hy).1, by omega⟩

/-! ## The function `operator-` on sets -/

theorem valid_iff_forall (s : List AMRange) : valid s = true ↔ ∀ m ∈ s, m.valid = true := by
  induction s with
  | nil => simp [valid]
  | cons it rest ih =>
    unfold valid
    by_cases h : it.valid = true
    · simp [h, ih]
    · simp [h]

theorem packList_ne_nil (s : List AMRange) (h : ∃ m ∈ s, m.valid = true) : packList s ≠ [] := by
  induction s with
  | nil => simp at h
  | cons it rest ih =>
    unfold packList
    by_cases h1 : it.valid = true
    · simpa [h1] using packOut_ne_nil (it :: rest) it
    · simp only [h1, Bool.not_false, if_true]
      apply ih
      obtain ⟨m, hm, hv⟩ := h
      rcases List.mem_cons.1 hm with rfl | hm
      · exact absurd hv h1
      · exact ⟨m, hm, hv⟩

theorem packOut_nonEmpty (l : List AMRange) (r : AMRange) (hr : r.from_ < r.to_)
    (hl : ∀ m ∈ l, m.from_ < m.to_) : ∀ y ∈ packOut l r, y.from_ < y.to_ := by
  induction l generalizing r with
  | nil => simpa [packOut] using hr
  | cons it rest ih =>
    have hit := hl it (List.mem_cons_self _ _)
    have hrest : ∀ m ∈ rest, m.from_ < m.to_ := fun m hm => hl m (List.mem_cons_of_mem _ hm)
    have h1 : it.valid = true := by rw [AMRange.valid_iff]; omega
    have hrv : r.valid = true := by rw [AMRange.valid_iff]; omega
    unfold packOut
    by_cases h2 : (r.add it).valid = true
    · simp only [h1, h2, Bool.not_true, Bool.false_eq_true, if_false, if_true]
      apply ih _ _ hrest
      rcases AMRange.add_cases r it hrv h1 with ⟨_, he, _⟩ | ⟨_, _, h⟩ | ⟨_, h⟩
      · omega
      · rw [h, AMRange.valid_iff] at h2; dsimp only at h2; omega
      · rw [h]; dsimp only; omega
    · simp only [h1, h2, Bool.not_true, Bool.false_eq_true, if_false]
      intro y hy
      rcases List.mem_cons.1 hy with rfl | hy
      · exact hr
      · exact ih it hit hrest y hy

theorem packList_nonEmpty (s : List AMRange) (hs : ∀ m ∈ s, m.from_ < m.to_) :
    ∀ y ∈ packList s, y.from_ < y.to_ := by
  cases s with
  | nil => simp [packList]
  | cons it rest =>
    have hit := hs it (List.mem_cons_self _ _)
    have h1 : it.valid = true := by rw [AMRange.valid_iff]; omega
    unfold packList
    simp only [h1, Bool.not_true, Bool.false_eq_true, if_false]
    exact packOut_nonEmpty _ _ hit hs

theorem setSub_eq (left right : List AMRange) (r0 : AMRange) (ls : List AMRange)
    (hl : left ≠ []) (hr : right ≠ []) (hp : pack left = r0 :: ls) :
    setSub left right = some (subFinal (subLoop (r0 :: ls) (pack right) r0 [])) := by
  have h1 : ¬ left.length = 0 := by simpa using hl
  have h2 : ¬ right.length = 0 := by simpa using hr
  unfold setSub
  simp only [h1, h2, if_false, hp]
  rfl

/-- Coverage of `operator-` on sets once both operands are non-empty and the left one
has a valid member: the result exists and covers the points of `left` not in `right`. -/
theorem setSub_covers_main (left right : List AMRange) (hsl : IsSet left) (hsr : IsSet right)
    (hl : ∃ m ∈ left, m.valid = true) (hr : right ≠ []) :
    ∃ res, setSub left right = some res ∧
      ∀ x, Covers res x ↔ Covers left x ∧ ¬ Covers right x := by
  have hlne : left ≠ [] := by
    obtain ⟨m, hm, _⟩ := hl
    exact List.ne_nil_of_mem hm
  have hpl := pack_packed left hsl
  have hpr := pack_packed right hsr
  have hne : pack left ≠ [] := by
    rw [pack_eq_packList left hsl]; exact packList_ne_nil left hl
  obtain ⟨r0, ls, hp⟩ := List.exists_cons_of_ne_nil hne
  refine ⟨_, setSub_eq left right r0 ls hlne hr hp, fun x => ?_⟩
  rw [hp] at hpl
  have hv0 : r0.from_ ≤ r0.to_ := (AMRange.valid_iff r0).1 (hpl.1 r0 (List.mem_cons_self _ _))
  have h1 : Covers (subFinal (subLoop (r0 :: ls) (pack right) r0 [])) x ↔
      Covers (subOut (r0 :: ls) (pack right) r0) x :=
    Covers.congr (fun y => by rw [mem_subLoop]; simp) x
  rw [h1, subOut_covers ls r0 (pack right) r0 hpl hpr rfl hv0 x, ← Covers.cons, ← hp,
    pack_covers, pack_covers]

theorem setSub_covers_all (left right : List AMRange) (hsl : IsSet left) (hsr : IsSet right)
    (hvl : valid left = true) :
    ∃ res, setSub left right = some res ∧
      ∀ x, Covers res x ↔ Covers left x ∧ ¬ Covers right x := by
  cases left with
  | nil => exact ⟨[], rfl, fun x => by simp [Covers.nil]⟩
  | cons a as =>
    cases right with
    | nil => exact ⟨a :: as, rfl, fun x => by simp [Covers.nil]⟩
    | cons b bs =>
      exact setSub_covers_main _ _ hsl hsr
        ⟨a, List.mem_cons_self _ _, (valid_iff_forall _).1 hvl a (List.mem_cons_self _ _)⟩
        (List.cons_ne_nil _ _)

/-- Packedness of `operator-` on sets once both operands are non-empty, the left one
has a valid member and no member of the right one is empty. -/
theorem setSub_packed_main (left right : List AMRange) (hsl : IsSet left) (hsr : IsSet right)
    (hl : ∃ m ∈ left, m.valid = true) (hr : right ≠ [])
    (hne : ∀ q ∈ right, q.nonEmpty = true) :
    ∃ res, setSub left right = some res ∧ Packed res ∧ ∀ y ∈ res, y.nonEmpty = true := by
  have hlne : left ≠ [] := by
    obtain ⟨m, hm, _⟩ := hl
    exact List.ne_nil_of_mem hm
  have hpl := pack_packed left hsl
  have hpr := pack_packed right hsr
  have hne0 : pack left ≠ [] := by
    rw [pack_eq_packList left hsl]; exact packList_ne_nil left hl
  obtain ⟨r0, ls, hp⟩ := List.exists_cons_of_ne_nil hne0
  rw [hp] at hpl
  have hv0 : r0.from_ ≤ r0.to_ := (AMRange.valid_iff r0).1 (hpl.1 r0 (List.mem_cons_self _ _))
  have hrne : ∀ q ∈ pack right, q.from_ < q.to_ := by
    rw [pack_eq_packList right hsr]
    exact packList_nonEmpty right (fun m hm => (AMRange.nonEmpty_iff m).1 (hne m hm))
  obtain ⟨p1, p2⟩ := subOut_packed ls r0 (pack right) r0 hpl hpr hrne rfl hv0
  have hpk : Packed (subOut (r0 :: ls) (pack right) r0) :=
    ⟨fun y hy => by rw [AMRange.valid_iff]; have := (p2 y hy).1; omega, p1⟩
  have heq : subFinal (subLoop (r0 :: ls) (pack right) r0 []) =
      subOut (r0 :: ls) (pack right) r0 :=
    isSet_ext (subLoop_isSet _ _ _ _ (by simp [IsSet])) hpk.isSet
      (fun y => by rw [mem_subLoop]; simp)
  refine ⟨_, setSub_eq left right r0 ls hlne hr hp, ?_, ?_⟩
  · rw [heq]; exact hpk
  · rw [heq]; exact fun y hy => (AMRange.nonEmpty_iff y).2 (p2 y hy).1

/-! ## Set difference: where the result is packed although the right operand has an empty member -/

theorem subStep_emit_of (r q : AMRange) (hr : r.valid = true) (hq : q.valid = true)
    (hne : r.from_ < q.from_ → q.to_ < r.to_ → q.from_ < q.to_) :
    (subStep r q []).2.Pairwise (fun u v => u.to_ < v.from_) ∧
      ∀ y ∈ (subStep r q []).2,
        y.from_ < y.to_ ∧ r.from_ ≤ y.from_ ∧ y.to_ < (subStep r q []).1.from_ := by
  rcases subStep_spec r q hr hq with ⟨s1, s2, s3, s4⟩ | ⟨s1, s2, s3, s4, s5, s6, s7⟩
  · have := hne s1 s2
    rw [s3, s4]
    simp only [List.pairwise_singleton, List.mem_singleton, true_and]
    intro y hy
    subst hy
    dsimp only
    omega
  · rw [s2]; simp

/-- Packedness of the sequence emitted by the loop of `operator-` on packed operands,
when no right member from `rit` on is an empty range strictly inside a left member
from `lit` on. -/
theorem subOut_packed_of (ls : List AMRange) (l : AMRange) (R : List AMRange) (r : AMRange)
    (hL : Packed (l :: ls)) (hR : Packed R)
    (hne : ∀ q ∈ R, ∀ m ∈ l :: ls, m.from_ < q.from_ → q.to_ < m.to_ → q.from_ < q.to_)
    (hto : r.to_ = l.to_) (hr : r.from_ ≤ r.to_) (hlr : l.from_ ≤ r.from_) :
    (subOut (l :: ls) R r).Pairwise (fun u v => u.to_ < v.from_) ∧
      ∀ y ∈ subOut (l :: ls) R r, y.from_ < y.to_ ∧ r.from_ ≤ y.from_ := by
  induction ls generalizing l R r with
  | nil =>
    induction R generalizing r with
    | nil =>
      rw [subOut, advanceLeft_nil, subOut_nil, List.nil_append]
      refine ⟨(emit_spec r).1, fun y hy => ?_⟩
      obtain ⟨rfl, h⟩ := (emit_spec r).2 y hy
      exact ⟨h, le_refl _⟩
    | cons q rs ihR =>
      have hq : q.valid = true := hR.1 q (List.mem_cons_self _ _)
      have hrv : r.valid = true := (AMRange.valid_iff r).2 hr
      have hqne : r.from_ < q.from_ → q.to_ < r.to_ → q.from_ < q.to_ := fun h1 h2 =>
        hne q (List.mem_cons_self _ _) l (List.mem_cons_self _ _) (by omega) (by omega)
      obtain ⟨i1, i2, i3, i4⟩ := subStep_inv r q hrv hq
      obtain ⟨e1, e2⟩ := subStep_emit_of r q hrv hq hqne
      rw [subOut]
      by_cases h : l.to_ > q.to_
      · simp only [h, if_true]
        have hto1 : (subStep r q []).1.to_ = l.to_ := by rw [i4 (by omega)]; exact hto
        obtain ⟨p1, p2⟩ := ihR (subStep r q []).1 hR.tail
          (fun q hq => hne q (List.mem_cons_of_mem _ hq)) hto1 i1 (by omega)
        refine ⟨pairwise_append_bound _ _ (subStep r q []).1.from_ e1 p1
          (fun y hy => (e2 y hy).2.2) (fun y hy => (p2 y hy).2), fun y hy => ?_⟩
        rcases List.mem_append.1 hy with hy | hy
        · exact ⟨(e2 y hy).1, (e2 y hy).2.1⟩
        · exact ⟨(p2 y hy).1, le_trans i2 (p2 y hy).2⟩
      · simp only [h, if_false]
        rw [subStep_emit_nil r q hrv hq (by omega), advanceLeft_nil, subOut_nil,
          List.nil_append, List.nil_append]
        refine ⟨(emit_spec _).1, fun y hy => ?_⟩
        obtain ⟨rfl, hy2⟩ := (emit_spec _).2 y hy
        exact ⟨hy2, i2⟩
  | cons l2 ls ihL =>
    have hL2 : Packed (l2 :: ls) := hL.tail
    have hl2 : l2.from_ ≤ l2.to_ := (AMRange.valid_iff l2).1 (hL2.1 l2 (List.mem_cons_self _ _))
    have hgap : l.to_ < l2.from_ := (List.pairwise_cons.1 hL.2).1 l2 (List.mem_cons_self _ _)
    induction R generalizing r with
    | nil =>
      rw [subOut, advanceLeft_cons]
      obtain ⟨p1, p2⟩ := ihL l2 [] l2 hL2 hR (fun q hq => by simp at hq) rfl hl2 (le_refl _)
      refine ⟨pairwise_append_bound _ _ l2.from_ (emit_spec r).1 p1 (fun y hy => ?_)
        (fun y hy => (p2 y hy).2), fun y hy => ?_⟩
      · obtain ⟨rfl, _⟩ := (emit_spec r).2 y hy
        omega
      · rcases List.mem_append.1 hy with hy | hy
        · obtain ⟨rfl, h⟩ := (emit_spec r).2 y hy
          exact ⟨h, le_refl _⟩
        · have := (p2 y hy).2
          exact ⟨(p2 y hy).1, by omega⟩
    | cons q rs ihR =>
      have hq : q.valid = true := hR.1 q (List.mem_cons_self _ _)
      have hrv : r.valid = true := (AMRange.valid_iff r).2 hr
      have hqne : r.from_ < q.from_ → q.to_ < r.to_ → q.from_ < q.to_ := fun h1 h2 =>
        hne q (List.mem_cons_self _ _) l (List.mem_cons_self _ _) (by omega) (by omega)
      obtain ⟨i1, i2, i3, i4⟩ := subStep_inv r q hrv hq
      obtain ⟨e1, e2⟩ := subStep_emit_of r q hrv hq hqne
      rw [subOut]
      by_cases h : l.to_ > q.to_
      · simp only [h, if_true]
        have hto1 : (subStep r q []).1.to_ = l.to_ := by rw [i4 (by omega)]; exact hto
        obtain ⟨p1, p2⟩ := ihR (subStep r q []).1 hR.tail
          (fun q hq => hne q (List.mem_cons_of_mem _ hq)) hto1 i1 (by omega)
        refine ⟨pairwise_append_bound _ _ (subStep r q []).1.from_ e1 p1
          (fun y hy => (e2 y hy).2.2) (fun y hy => (p2 y hy).2), fun y hy => ?_⟩
        rcases List.mem_append.1 hy with hy | hy
        · exact ⟨(e2 y hy).1, (e2 y hy).2.1⟩
        · exact ⟨(p2 y hy).1, le_trans i2 (p2 y hy).2⟩
      · simp only [h, if_false]
        rw [subStep_emit_nil r q hrv hq (by omega), advanceLeft_cons, List.nil_append]
        obtain ⟨p1, p2⟩ := ihL l2 (q :: rs) l2 hL2 hR
          (fun q hq m hm => hne q hq m (List.mem_cons_of_mem _ hm)) rfl hl2 (le_refl _)
        refine ⟨pairwise_append_bound _ _ l2.from_ (emit_spec _).1 p1 (fun y hy => ?_)
          (fun y hy => (p2 y hy).2), fun y hy => ?_⟩
        · obtain ⟨rfl, _⟩ := (emit_spec _).2 y hy
          omega
        · rcases List.mem_append.1 hy with hy | hy
          · obtain ⟨rfl, hy2⟩ := (emit_spec _).2 y hy
            exact ⟨hy2, i2⟩
          · have := (p2 y hy).2
            exact ⟨(p2 y hy).1, by omega⟩

/-- The function `operator-` on sets returns a packed set whenever both operands have
a member, the left one has a valid member, and no member of `pack(right)` is an empty
range lying strictly inside a member of `pack(left)`. -/
theorem setSub_packed_of_no_split (left right : List AMRange) (hsl : IsSet left)
    (hsr : IsSet right) (hl : ∃ m ∈ left, m.valid = true) (hr : right ≠ [])
    (hne : ∀ q ∈ pack right, ∀ m ∈ pack left,
      m.from_ < q.from_ → q.to_ < m.to_ → q.from_ < q.to_) :
    ∃ res, setSub left right = some res ∧ isPacked res = true := by
  have hlne : left ≠ [] := by
    obtain ⟨m, hm, _⟩ := hl
    exact List.ne_nil_of_mem hm
  have hpl := pack_packed left hsl
  have hpr := pack_packed right hsr
  have hne0 : pack left ≠ [] := by
    rw [pack_eq_packList left hsl]; exact packList_ne_nil left hl
  obtain ⟨r0, ls, hp⟩ := List.exists_cons_of_ne_nil hne0
  rw [hp] at hpl hne
  have hv0 : r0.from_ ≤ r0.to_ := (AMRange.valid_iff r0).1 (hpl.1 r0 (List.mem_cons_self _ _))
  obtain ⟨p1, p2⟩ := subOut_packed_of ls r0 (pack right) r0 hpl hpr hne rfl hv0 (le_refl _)
  have hpk : Packed (subOut (r0 :: ls) (pack right) r0) :=
    ⟨fun y hy => by rw [AMRange.valid_iff]; have := (p2 y hy).1; omega, p1⟩
  have heq : subFinal (subLoop (r0 :: ls) (pack right) r0 []) =
      subOut (r0 :: ls) (pack right) r0 :=
    isSet_ext (subLoop_isSet _ _ _ _ (by simp [IsSet])) hpk.isSet
      (fun y => by rw [mem_subLoop]; simp)
  refine ⟨_, setSub_eq left right r0 ls hlne hr hp, ?_⟩
  rw [heq]
  exact (isPacked_iff _).2 hpk

/-! ## The claims -/

/-- C1: for every set `s` (members in container order, arbitrary otherwise: overlapping,
touching, empty or invalid), `pack(s)` is packed: `isPacked(pack(s))` is true, every
member is valid and each member's `from` is strictly greater than the previous
member's `to`. -/
theorem pack_isPacked (s : List AMRange) (hs : IsSet s) :
    isPacked (pack s) = true ∧ (∀ m ∈ pack s, m.valid = true) ∧
      List.Chain' (fun a b => b.from_ > a.to_) (pack s) := by
  have h := pack_packed s hs
  exact ⟨(isPacked_iff _).2 h, h.1, List.Pairwise.chain' h.2⟩

theorem pack_isPacked_witness :
    IsSet [⟨1, 5⟩, ⟨3, 9⟩, ⟨9, 9⟩, ⟨12, 9⟩, ⟨12, 15⟩] ∧
      (isPacked (pack [⟨1, 5⟩, ⟨3, 9⟩, ⟨9, 9⟩, ⟨12, 9⟩, ⟨12, 15⟩]) = true ∧
        (∀ m ∈ pack [⟨1, 5⟩, ⟨3, 9⟩, ⟨9, 9⟩, ⟨12, 9⟩, ⟨12, 15⟩], m.valid = true) ∧
        List.Chain' (fun a b => b.from_ > a.to_)
          (pack [⟨1, 5⟩, ⟨3, 9⟩, ⟨9, 9⟩, ⟨12, 9⟩, ⟨12, 15⟩])) :=
  ⟨by decide, pack_isPacked _ (by decide)⟩

/-- C2: `pack` preserves the covered points: for every set `s` and every value `x`, some
member `r` of `pack(s)` has `r.in(x)` if and only if some member `r` of `s` has
`r.in(x)`. -/
theorem pack_preserves_points (s : List AMRange) (x : Int) :
    (∃ r ∈ pack s, r.inT x = true) ↔ (∃ r ∈ s, r.inT x = true) :=
  pack_covers s x

/-- C3: for all sets `s` and `t` whose members are all valid, the set union `s + t` is
packed: `isPacked(s + t)` is true. -/
theorem setAdd_isPacked (s t : List AMRange) (hs : IsSet s) (_ht : IsSet t)
    (_hvs : valid s = true) (_hvt : valid t = true) : isPacked (setAdd s t) = true := by
  unfold setAdd
  exact (isPacked_iff _).2 (pack_packed _ (insertAll_isSet _ _ hs))

theorem setAdd_isPacked_witness :
    IsSet s07 ∧ IsSet s05 ∧
      valid s07 = true ∧
      valid s05 = true ∧
      isPacked (setAdd s07 s05) = true :=
  ⟨by decide, by decide, by decide, by decide,
    setAdd_isPacked _ _ (by decide) (by decide) (by decide) (by decide)⟩

/-- C4: set union covers exactly the points of both operands: for all sets `s`, `t`
and every value `x`, some member of `s + t` contains `x` if and only if some member of
`s` or some member of `t` contains `x`; and `s + t` equals `pack` applied to the
set-theoretic union of `s` and `t`, the set `u` whose members are exactly the members
of `s` and the members of `t`. -/
theorem setAdd_covers_union (s t : List AMRange) (hs : IsSet s) :
    (∀ x, (∃ r ∈ setAdd s t, r.inT x = true) ↔
        ((∃ r ∈ s, r.inT x = true) ∨ (∃ r ∈ t, r.inT x = true))) ∧
      (∀ u, IsSet u → (∀ r, r ∈ u ↔ r ∈ s ∨ r ∈ t) → setAdd s t = pack u) := by
  constructor
  · intro x
    unfold setAdd
    have h := pack_covers (insertAll (merge s t) s) x
    have h2 : Covers (insertAll (merge s t) s) x ↔ Covers s x ∨ Covers t x := by
      simp only [Covers, mem_setAdd_input]
      constructor
      · rintro ⟨r, hr | hr, hx⟩
        · exact Or.inl ⟨r, hr, hx⟩
        · exact Or.inr ⟨r, hr, hx⟩
      · rintro (⟨r, hr, hx⟩ | ⟨r, hr, hx⟩)
        · exact ⟨r, Or.inl hr, hx⟩
        · exact ⟨r, Or.inr hr, hx⟩
    exact h.trans h2
  · intro u hu hmem
    unfold setAdd
    have : insertAll (merge s t) s = u :=
      isSet_ext (insertAll_isSet _ _ hs) hu
        (fun y => by rw [mem_setAdd_input, hmem])
    show pack (insertAll (merge s t) s) = pack u
    rw [this]

theorem setAdd_covers_union_witness :
    IsSet s19 ∧
      (∀ x, (∃ r ∈ setAdd s19 s05, r.inT x = true) ↔
        ((∃ r ∈ s19, AMRange.inT r x = true) ∨
          (∃ r ∈ s05, AMRange.inT r x = true))) ∧
      setAdd s19 s05 =
        pack [⟨1, 5⟩, ⟨3, 9⟩, ⟨7, 9⟩, ⟨17, 19⟩] :=
  ⟨by decide,
    (setAdd_covers_union s19 s05 (by decide)).1,
    (setAdd_covers_union s19 s05 (by decide)).2
      [⟨1, 5⟩, ⟨3, 9⟩, ⟨7, 9⟩, ⟨17, 19⟩] (by decide) (by intro r; simp [s05, s19]; tauto)⟩

/-- C5: set difference removes exactly the points of the right operand: for all valid
sets `s`, `t` the difference `s - t` is returned and, for every value `x`, some member
of `s - t` contains `x` if and only if some member of `s` contains `x` and no member
of `t` contains `x`.  The same holds for `Range - set` and `set - Range` with a valid
range, which wrap the range as a singleton set. -/
theorem setSub_removes_points (s t : List AMRange) (hs : IsSet s) (ht : IsSet t)
    (hvs : valid s = true) (_hvt : valid t = true) :
    (∃ res, setSub s t = some res ∧
        ∀ x, (∃ r ∈ res, r.inT x = true) ↔
          ((∃ r ∈ s, r.inT x = true) ∧ ¬ ∃ r ∈ t, r.inT x = true)) ∧
      (∀ a : AMRange, a.valid = true → ∃ res, rangeSubSet a t = some res ∧
        ∀ x, (∃ r ∈ res, r.inT x = true) ↔
          (a.inT x = true ∧ ¬ ∃ r ∈ t, r.inT x = true)) ∧
      (∀ b : AMRange, b.valid = true → ∃ res, setSubRange s b = some res ∧
        ∀ x, (∃ r ∈ res, r.inT x = true) ↔
          ((∃ r ∈ s, r.inT x = true) ∧ ¬ b.inT x = true)) := by
  refine ⟨setSub_covers_all s t hs ht hvs, fun a ha => ?_, fun b _ => ?_⟩
  · obtain ⟨res, h1, h2⟩ := setSub_covers_all [a] t (by simp [IsSet]) ht (by simp [valid, ha])
    refine ⟨res, h1, fun x => (h2 x).trans ?_⟩
    simp [Covers]
  · obtain ⟨res, h1, h2⟩ := setSub_covers_all s [b] hs (by simp [IsSet]) hvs
    refine ⟨res, h1, fun x => (h2 x).trans ?_⟩
    simp [Covers]

theorem setSub_removes_points_witness :
    IsSet s07 ∧ IsSet s05 ∧
      valid s07 = true ∧
      valid s05 = true ∧
      ((∃ res, setSub s07 s05 = some res ∧
          ∀ x, (∃ r ∈ res, r.inT x = true) ↔
            ((∃ r ∈ s07, AMRange.inT r x = true) ∧
              ¬ ∃ r ∈ s05, AMRange.inT r x = true)) ∧
        (∀ a : AMRange, a.valid = true → ∃ res, rangeSubSet a s05 = some res ∧
          ∀ x, (∃ r ∈ res, r.inT x = true) ↔
            (a.inT x = true ∧ ¬ ∃ r ∈ s05, AMRange.inT r x = true)) ∧
        (∀ b : AMRange, b.valid = true →
          ∃ res, setSubRange s07 b = some res ∧
          ∀ x, (∃ r ∈ res, r.inT x = true) ↔
            ((∃ r ∈ s07, AMRange.inT r x = true) ∧
              ¬ b.inT x = true))) :=
  ⟨by decide, by decide, by decide, by decide,
    setSub_removes_points _ _ (by decide) (by decide) (by decide) (by decide)⟩

/-- C6: the claim is the doc comment of `operator-` on sets (valid sets in, packed set
out), and the code does not meet it.  At the valid operands `{[1,5)}` and `{[3,3)}`
both are already packed, `[1,5) - [3,3)` is invalid, so the split branch inserts the
before-piece `[1,3)` and goes on with `[3,5)`: the result `{[1,3), [3,5)}` has two
touching members and `isPacked` is false on it. -/
theorem setSub_unpacked_on_valid_input :
    IsSet [⟨1, 5⟩] ∧ IsSet [⟨3, 3⟩] ∧ valid [⟨1, 5⟩] = true ∧ valid [⟨3, 3⟩] = true ∧
      pack [⟨1, 5⟩] = [⟨1, 5⟩] ∧ pack [⟨3, 3⟩] = [⟨3, 3⟩] ∧
      (AMRange.sub ⟨1, 5⟩ ⟨3, 3⟩).valid = false ∧
      setSub [⟨1, 5⟩] [⟨3, 3⟩] = some [⟨1, 3⟩, ⟨3, 5⟩] ∧
      isPacked [⟨1, 3⟩, ⟨3, 5⟩] = false := by
  refine ⟨by decide, by decide, by decide, by decide, by decide, by decide, by decide, ?_,
    by decide⟩
  simp [setSub, pack, packStart, packRun, subLoop, subStep, advanceLeft, setInsert,
    AMRange.valid, AMRange.add, AMRange.sub, AMRange.nonEmpty, AMRange.lt]

/-- With an empty right operand `operator-` returns the left operand before the
`pack(left)` of the general path: the valid set `{[1,5), [3,9)}` comes back as given,
not packed, where `pack` of it is `{[1,9)}`. -/
theorem setSub_empty_right_unpacked :
    IsSet s05 ∧ valid s05 = true ∧ setSub s05 [] = some s05 ∧ isPacked s05 = false ∧
      pack s05 = [⟨1, 9⟩] := by
  decide

/-- Where `operator-` on sets does return a packed set, in terms of the operands as
given: for all valid sets `s` and `t` such that no member of `t` is empty, provided `t`
has a member or `s` itself is packed. -/
theorem setSub_isPacked (s t : List AMRange) (hs : IsSet s) (ht : IsSet t)
    (hvs : valid s = true) (htne : ∀ q ∈ t, q.nonEmpty = true)
    (h : t ≠ [] ∨ isPacked s = true) :
    ∃ res, setSub s t = some res ∧ isPacked res = true := by
  cases s with
  | nil => exact ⟨[], rfl, rfl⟩
  | cons a as =>
    cases t with
    | nil =>
      rcases h with h | h
      · exact absurd rfl h
      · exact ⟨a :: as, rfl, h⟩
    | cons b bs =>
      obtain ⟨res, h1, h2, _⟩ := setSub_packed_main (a :: as) (b :: bs) hs ht
        ⟨a, List.mem_cons_self _ _, (valid_iff_forall _).1 hvs a (List.mem_cons_self _ _)⟩
        (List.cons_ne_nil _ _) htne
      exact ⟨res, h1, (isPacked_iff res).2 h2⟩

theorem setSub_isPacked_witness :
    IsSet s07 ∧ IsSet s05 ∧
      valid s07 = true ∧
      (∀ q ∈ s05, AMRange.nonEmpty q = true) ∧
      (s05 ≠ [] ∨
        isPacked s07 = true) ∧
      ∃ res, setSub s07 s05 = some res ∧
        isPacked res = true :=
  ⟨by decide, by decide, by decide, by decide, by decide,
    setSub_isPacked _ _ (by decide) (by decide) (by decide) (by decide) (by decide)⟩

/-- C7: degenerate cases of set difference: for every set `t`, the empty set minus `t`
is the empty set; and for every non-empty set `s`, `s` minus the empty set is `s`
itself, member for member, with no re-packing. -/
theorem setSub_degenerate (s t : List AMRange) (hs : s ≠ []) :
    setSub [] t = some [] ∧ setSub s [] = some s := by
  refine ⟨rfl, ?_⟩
  cases s with
  | nil => exact absurd rfl hs
  | cons a as => rfl

theorem setSub_degenerate_witness :
    s05 ≠ [] ∧
      (setSub [] [AMRange.mk 7 9] = some [] ∧
        setSub s05 [] = some s05) :=
  ⟨by decide, setSub_degenerate s05 [AMRange.mk 7 9] (by decide)⟩

/-- C8: `pack` is idempotent: for any set `s` with at least one valid member,
`pack(pack(s)) == pack(s)`. -/
theorem pack_idempotent (s : List AMRange) (hs : IsSet s)
    (_hv : ∃ m ∈ s, m.valid = true) : pack (pack s) = pack s :=
  pack_pack s hs

theorem pack_idempotent_witness :
    IsSet s07 ∧
      (∃ m ∈ s07, AMRange.valid m = true) ∧
      pack (pack s07) =
        pack s07 :=
  ⟨by decide, by decide, pack_idempotent _ (by decide) (by decide)⟩

/-- C9, the claim as stated fails: the set `{[1,1), [3,5)}` is packed, and `pack` drops
its empty first member, returning `{[3,5)}`. -/
theorem pack_drops_empty_counterexample :
    IsSet [⟨1, 1⟩, ⟨3, 5⟩] ∧ isPacked [⟨1, 1⟩, ⟨3, 5⟩] = true ∧
      pack [⟨1, 1⟩, ⟨3, 5⟩] = [⟨3, 5⟩] ∧ pack [⟨1, 1⟩, ⟨3, 5⟩] ≠ [⟨1, 1⟩, ⟨3, 5⟩] := by
  decide

/-- C9, amended: for every set `s` with `isPacked(s)` true, `pack(s) == s` if and only
if every member of `s` other than the last is non-empty (`to > from`); in particular
`pack` is the identity on packed sets without an empty member. -/
theorem pack_eq_self_iff (s : List AMRange) (hp : isPacked s = true) :
    pack s = s ↔ ∀ y ∈ s.dropLast, y.nonEmpty = true := by
  have hP : Packed s := (isPacked_iff s).1 hp
  have hspec := packList_spec s hP.isSet
  rw [pack_eq_packList s hP.isSet]
  constructor
  · intro h
    rw [h] at hspec
    exact hspec.2
  · exact packList_fix s hP

theorem pack_eq_self_iff_witness :
    isPacked [⟨1, 5⟩, ⟨7, 15⟩, ⟨17, 17⟩] = true ∧
      (pack [⟨1, 5⟩, ⟨7, 15⟩, ⟨17, 17⟩] = [⟨1, 5⟩, ⟨7, 15⟩, ⟨17, 17⟩] ↔
        ∀ y ∈ List.dropLast [⟨1, 5⟩, ⟨7, 15⟩, ⟨17, 17⟩], AMRange.nonEmpty y = true) :=
  ⟨by decide, pack_eq_self_iff _ (by decide)⟩

/-- C10: range union of overlapping or touching ranges is their span: for all valid
ranges `a`, `b` that are not disjoint (neither `a.to < b.from` nor `a.from > b.to`),
`a + b == Range(min(a.from, b.from), max(a.to, b.to))` and `a + b` is valid. -/
theorem add_span (a b : AMRange) (ha : a.valid = true) (hb : b.valid = true)
    (h1 : ¬ a.to_ < b.from_) (h2 : ¬ a.from_ > b.to_) :
    a.add b = ⟨min a.from_ b.from_, max a.to_ b.to_⟩ ∧
      (a.add b).eq ⟨min a.from_ b.from_, max a.to_ b.to_⟩ = true ∧
      (a.add b).valid = true := by
  have hva := (AMRange.valid_iff a).1 ha
  have hvb := (AMRange.valid_iff b).1 hb
  rcases AMRange.add_cases a b ha hb with ⟨hd, _, _⟩ | ⟨hd, _, _⟩ | ⟨_, h⟩
  · omega
  · omega
  · refine ⟨h, ?_, ?_⟩
    · rw [h]; simp [AMRange.eq]
    · rw [h, AMRange.valid_iff]
      dsimp only
      omega

theorem add_span_witness :
    AMRange.valid ⟨1, 5⟩ = true ∧ AMRange.valid ⟨4, 10⟩ = true ∧
      ¬ (AMRange.mk 1 5).to_ < (AMRange.mk 4 10).from_ ∧
      ¬ (AMRange.mk 1 5).from_ > (AMRange.mk 4 10).to_ ∧
      (AMRange.add ⟨1, 5⟩ ⟨4, 10⟩ =
          ⟨min (AMRange.mk 1 5).from_ (AMRange.mk 4 10).from_,
            max (AMRange.mk 1 5).to_ (AMRange.mk 4 10).to_⟩ ∧
        (AMRange.add ⟨1, 5⟩ ⟨4, 10⟩).eq
          ⟨min (AMRange.mk 1 5).from_ (AMRange.mk 4 10).from_,
            max (AMRange.mk 1 5).to_ (AMRange.mk 4 10).to_⟩ = true ∧
        (AMRange.add ⟨1, 5⟩ ⟨4, 10⟩).valid = true) :=
  ⟨by decide, by decide, by decide, by decide,
    add_span ⟨1, 5⟩ ⟨4, 10⟩ (by decide) (by decide) (by decide) (by decide)⟩

/-! ## Single ranges: invalid operands, subtraction, intersection, containment -/

theorem AMRange.valid_eq_false_iff (a : AMRange) : a.valid = false ↔ a.to_ < a.from_ := by
  simp [AMRange.valid]

theorem AMRange.eq_iff (a b : AMRange) : a.eq b = true ↔ a = b := by
  rw [AMRange.ext_iff2]
  simp [AMRange.eq]

theorem AMRange.add_of_invalid (a b : AMRange) (ha : a.valid = false) : a.add b = a := by
  unfold AMRange.add
  simp [ha]

theorem AMRange.add_of_invalid_right (a b : AMRange) (ha : a.valid = true)
    (hb : b.valid = false) : a.add b = b := by
  unfold AMRange.add
  simp [ha, hb]

theorem AMRange.sub_of_invalid (a b : AMRange) (ha : a.valid = false) : a.sub b = a := by
  unfold AMRange.sub
  simp [ha]

theorem AMRange.sub_of_invalid_right (a b : AMRange) (ha : a.valid = true)
    (hb : b.valid = false) : a.sub b = b := by
  unfold AMRange.sub
  simp [ha, hb]

theorem AMRange.intersect_bounds (a b : AMRange) :
    (a.intersect b).from_ = max a.from_ b.from_ ∧
      (a.intersect b).to_ = max (max a.from_ b.from_) (min a.to_ b.to_) := by
  unfold AMRange.intersect
  dsimp only
  constructor
  · split_ifs <;> omega
  · split_ifs <;> omega

/-- C11: range union of disjoint ranges yields the invalid sentinel: for all valid
ranges `a`, `b` with `a` non-empty (`a.to > a.from`) and `a` disjoint from `b`
(`a.to < b.from` or `a.from > b.to`), `a + b == Range(a.to, a.from)`, the receiver with
its bounds swapped, and `(a + b).valid()` is false. -/
theorem add_disjoint (a b : AMRange) (ha : a.valid = true) (hb : b.valid = true)
    (hne : a.to_ > a.from_) (hd : a.to_ < b.from_ ∨ a.from_ > b.to_) :
    a.add b = ⟨a.to_, a.from_⟩ ∧ (a.add b).eq ⟨a.to_, a.from_⟩ = true ∧
      (a.add b).valid = false := by
  rcases AMRange.add_cases a b ha hb with ⟨_, he, _⟩ | ⟨_, _, h⟩ | ⟨ht, _⟩
  · omega
  · refine ⟨h, (AMRange.eq_iff _ _).2 h, ?_⟩
    rw [h, AMRange.valid_eq_false_iff]
    exact hne
  · omega

theorem add_disjoint_witness :
    AMRange.valid ⟨1, 5⟩ = true ∧ AMRange.valid ⟨6, 7⟩ = true ∧
      (AMRange.mk 1 5).to_ > (AMRange.mk 1 5).from_ ∧
      ((AMRange.mk 1 5).to_ < (AMRange.mk 6 7).from_ ∨
        (AMRange.mk 1 5).from_ > (AMRange.mk 6 7).to_) ∧
      (AMRange.add ⟨1, 5⟩ ⟨6, 7⟩ = ⟨(AMRange.mk 1 5).to_, (AMRange.mk 1 5).from_⟩ ∧
        (AMRange.add ⟨1, 5⟩ ⟨6, 7⟩).eq ⟨(AMRange.mk 1 5).to_, (AMRange.mk 1 5).from_⟩ = true ∧
        (AMRange.add ⟨1, 5⟩ ⟨6, 7⟩).valid = false) :=
  ⟨by decide, by decide, by decide, by decide,
    add_disjoint ⟨1, 5⟩ ⟨6, 7⟩ (by decide) (by decide) (by decide) (by decide)⟩

/-- C12: whenever a range union is valid it contains both operands' points: for all
ranges `a`, `b` such that `a + b` is valid, and for every value `x`, `a.in(x)` or
`b.in(x)` implies `(a + b).in(x)`. -/
theorem add_contains (a b : AMRange) (h : (a.add b).valid = true) (x : Int)
    (hx : a.inT x = true ∨ b.inT x = true) : (a.add b).inT x = true := by
  by_cases ha : a.valid = true
  · by_cases hb : b.valid = true
    · have hva := (AMRange.valid_iff a).1 ha
      have hvb := (AMRange.valid_iff b).1 hb
      simp only [AMRange.inT_iff] at hx
      rcases AMRange.add_cases a b ha hb with ⟨_, he, h1⟩ | ⟨_, hne, h1⟩ | ⟨ht, h1⟩
      · rw [h1, AMRange.inT_iff]; omega
      · rw [h1, AMRange.valid_iff] at h; dsimp only at h; omega
      · rw [h1, AMRange.inT_iff]; dsimp only; omega
    · rw [AMRange.add_of_invalid_right a b ha (by simpa using hb)] at h
      exact absurd h hb
  · rw [AMRange.add_of_invalid a b (by simpa using ha)] at h
    exact absurd h ha

theorem add_contains_witness :
    (AMRange.add ⟨1, 5⟩ ⟨4, 10⟩).valid = true ∧
      (AMRange.inT ⟨1, 5⟩ 7 = true ∨ AMRange.inT ⟨4, 10⟩ 7 = true) ∧
      (AMRange.add ⟨1, 5⟩ ⟨4, 10⟩).inT 7 = true :=
  ⟨by decide, by decide, add_contains ⟨1, 5⟩ ⟨4, 10⟩ (by decide) 7 (by decide)⟩

/-- C13: range subtraction yields the invalid sentinel exactly when the right operand
would split the receiver: for all valid ranges `a`, `b`, `(a - b).valid()` is false if
and only if `a.from < b.from` and `a.to > b.to`, and in that case
`a - b == Range(a.to, a.from)`, the receiver with its bounds swapped. -/
theorem sub_invalid_iff (a b : AMRange) (ha : a.valid = true) (hb : b.valid = true) :
    ((a.sub b).valid = false ↔ (a.from_ < b.from_ ∧ a.to_ > b.to_)) ∧
      ((a.from_ < b.from_ ∧ a.to_ > b.to_) →
        a.sub b = ⟨a.to_, a.from_⟩ ∧ (a.sub b).eq ⟨a.to_, a.from_⟩ = true) := by
  have hva := (AMRange.valid_iff a).1 ha
  have hvb := (AMRange.valid_iff b).1 hb
  rcases AMRange.sub_cases a b ha hb with ⟨h1, h2, h⟩ | ⟨h1, h2, h3, h⟩ | ⟨h1, h2, h3, h⟩ |
    ⟨h1, h2, h⟩ | ⟨h1, h2, h3, h⟩ | ⟨h1, h2, h3, h⟩
  · refine ⟨?_, fun _ => ⟨h, (AMRange.eq_iff _ _).2 h⟩⟩
    rw [h, AMRange.valid_eq_false_iff]
    dsimp only
    omega
  all_goals
    refine ⟨?_, fun hsplit => by omega⟩
    rw [h, AMRange.valid_eq_false_iff]
    first | omega | (dsimp only; omega)

theorem sub_invalid_iff_witness :
    AMRange.valid ⟨1, 15⟩ = true ∧ AMRange.valid ⟨4, 7⟩ = true ∧
      (((AMRange.sub ⟨1, 15⟩ ⟨4, 7⟩).valid = false ↔
          ((AMRange.mk 1 15).from_ < (AMRange.mk 4 7).from_ ∧
            (AMRange.mk 1 15).to_ > (AMRange.mk 4 7).to_)) ∧
        (((AMRange.mk 1 15).from_ < (AMRange.mk 4 7).from_ ∧
            (AMRange.mk 1 15).to_ > (AMRange.mk 4 7).to_) →
          AMRange.sub ⟨1, 15⟩ ⟨4, 7⟩ = ⟨(AMRange.mk 1 15).to_, (AMRange.mk 1 15).from_⟩ ∧
            (AMRange.sub ⟨1, 15⟩ ⟨4, 7⟩).eq
              ⟨(AMRange.mk 1 15).to_, (AMRange.mk 1 15).from_⟩ = true)) :=
  ⟨by decide, by decide, sub_invalid_iff ⟨1, 15⟩ ⟨4, 7⟩ (by decide) (by decide)⟩

/-- C14: whenever a range subtraction is valid it is the exact point-set difference:
for all valid ranges `a`, `b` such that `a - b` is valid, and for every value `x`,
`(a - b).in(x)` if and only if `a.in(x)` and not `b.in(x)`; in particular, if `a` and
`b` share no point, `a - b` covers exactly the points of `a`. -/
theorem sub_exact (a b : AMRange) (ha : a.valid = true) (hb : b.valid = true)
    (h : (a.sub b).valid = true) :
    (∀ x, (a.sub b).inT x = true ↔ (a.inT x = true ∧ ¬ b.inT x = true)) ∧
      ((∀ x, ¬ (a.inT x = true ∧ b.inT x = true)) →
        ∀ x, (a.sub b).inT x = true ↔ a.inT x = true) := by
  have hva := (AMRange.valid_iff a).1 ha
  have hvb := (AMRange.valid_iff b).1 hb
  have key : ∀ x, (a.sub b).inT x = true ↔ (a.inT x = true ∧ ¬ b.inT x = true) := by
    intro x
    rcases AMRange.sub_cases a b ha hb with ⟨h1, h2, e⟩ | ⟨h1, h2, h3, e⟩ | ⟨h1, h2, h3, e⟩ |
      ⟨h1, h2, e⟩ | ⟨h1, h2, h3, e⟩ | ⟨h1, h2, h3, e⟩
    · rw [e, AMRange.valid_iff] at h; dsimp only at h; omega
    all_goals
      rw [e]
      simp only [AMRange.inT_iff]
      omega
  refine ⟨key, fun hno x => ?_⟩
  rw [key x]
  constructor
  · exact fun hx => hx.1
  · exact fun hx => ⟨hx, fun hbx => hno x ⟨hx, hbx⟩⟩

theorem sub_exact_witness :
    AMRange.valid ⟨1, 5⟩ = true ∧ AMRange.valid ⟨3, 7⟩ = true ∧
      (AMRange.sub ⟨1, 5⟩ ⟨3, 7⟩).valid = true ∧
      ((∀ x, (AMRange.sub ⟨1, 5⟩ ⟨3, 7⟩).inT x = true ↔
          (AMRange.inT ⟨1, 5⟩ x = true ∧ ¬ AMRange.inT ⟨3, 7⟩ x = true)) ∧
        ((∀ x, ¬ (AMRange.inT ⟨1, 5⟩ x = true ∧ AMRange.inT ⟨3, 7⟩ x = true)) →
          ∀ x, (AMRange.sub ⟨1, 5⟩ ⟨3, 7⟩).inT x = true ↔ AMRange.inT ⟨1, 5⟩ x = true)) :=
  ⟨by decide, by decide, by decide,
    sub_exact ⟨1, 5⟩ ⟨3, 7⟩ (by decide) (by decide) (by decide)⟩

/-- C15, the claim as stated fails in both halves: with the invalid receiver `[11,5)`,
`[11,5) + [5,7)` is `[11,5)`, not `[5,7)`; with the valid receiver `[5,7)` and the
invalid operand `[11,5)`, `[5,7) + [11,5)` is `[11,5)`, not `[5,7)`. -/
theorem add_invalid_operand_counterexample :
    (AMRange.valid ⟨11, 5⟩ = false ∧ AMRange.add ⟨11, 5⟩ ⟨5, 7⟩ = ⟨11, 5⟩ ∧
        (AMRange.add ⟨11, 5⟩ ⟨5, 7⟩).eq ⟨5, 7⟩ = false) ∧
      (AMRange.valid ⟨5, 7⟩ = true ∧ AMRange.valid ⟨11, 5⟩ = false ∧
        AMRange.add ⟨5, 7⟩ ⟨11, 5⟩ = ⟨11, 5⟩ ∧
        (AMRange.add ⟨5, 7⟩ ⟨11, 5⟩).eq ⟨5, 7⟩ = false) := by
  decide

/-- C15, amended: for all ranges `a`, `b`, if the receiver `a` is invalid
(`a.from > a.to`) then `a + b == a`, the receiver unchanged, and if `a` is valid and
the other operand `b` is invalid then `a + b == b`, the other operand. -/
theorem add_invalid_operand (a b : AMRange) :
    (a.valid = false → a.add b = a ∧ (a.add b).eq a = true) ∧
      (a.valid = true → b.valid = false → a.add b = b ∧ (a.add b).eq b = true) :=
  ⟨fun ha => ⟨AMRange.add_of_invalid a b ha,
      (AMRange.eq_iff _ _).2 (AMRange.add_of_invalid a b ha)⟩,
    fun ha hb => ⟨AMRange.add_of_invalid_right a b ha hb,
      (AMRange.eq_iff _ _).2 (AMRange.add_of_invalid_right a b ha hb)⟩⟩

theorem add_invalid_operand_witness :
    (AMRange.valid ⟨11, 5⟩ = false ∧
        (AMRange.add ⟨11, 5⟩ ⟨5, 7⟩ = ⟨11, 5⟩ ∧
          (AMRange.add ⟨11, 5⟩ ⟨5, 7⟩).eq ⟨11, 5⟩ = true)) ∧
      (AMRange.valid ⟨5, 7⟩ = true ∧ AMRange.valid ⟨11, 5⟩ = false ∧
        (AMRange.add ⟨5, 7⟩ ⟨11, 5⟩ = ⟨11, 5⟩ ∧
          (AMRange.add ⟨5, 7⟩ ⟨11, 5⟩).eq ⟨11, 5⟩ = true)) :=
  ⟨⟨by decide, (add_invalid_operand ⟨11, 5⟩ ⟨5, 7⟩).1 (by decide)⟩,
    ⟨by decide, by decide, (add_invalid_operand ⟨5, 7⟩ ⟨11, 5⟩).2 (by decide) (by decide)⟩⟩

/-- C16, the claim as stated fails in both halves: with the invalid receiver `[11,5)`,
`[11,5) - [5,7)` is `[11,5)`, not `[5,7)`; with the valid receiver `[1,5)` and the
invalid operand `[9,7)`, `[1,5) - [9,7)` is `[9,7)`, not `[1,5)`. -/
theorem sub_invalid_operand_counterexample :
    (AMRange.valid ⟨11, 5⟩ = false ∧ AMRange.sub ⟨11, 5⟩ ⟨5, 7⟩ = ⟨11, 5⟩ ∧
        (AMRange.sub ⟨11, 5⟩ ⟨5, 7⟩).eq ⟨5, 7⟩ = false) ∧
      (AMRange.valid ⟨1, 5⟩ = true ∧ AMRange.valid ⟨9, 7⟩ = false ∧
        AMRange.sub ⟨1, 5⟩ ⟨9, 7⟩ = ⟨9, 7⟩ ∧
        (AMRange.sub ⟨1, 5⟩ ⟨9, 7⟩).eq ⟨1, 5⟩ = false) := by
  decide

/-- C16, amended: for all ranges `a`, `b`, if the receiver `a` is invalid
(`a.from > a.to`) then `a - b == a`, the receiver unchanged, and if `a` is valid and
the other operand `b` is invalid then `a - b == b`, the other operand. -/
theorem sub_invalid_operand (a b : AMRange) :
    (a.valid = false → a.sub b = a ∧ (a.sub b).eq a = true) ∧
      (a.valid = true → b.valid = false → a.sub b = b ∧ (a.sub b).eq b = true) :=
  ⟨fun ha => ⟨AMRange.sub_of_invalid a b ha,
      (AMRange.eq_iff _ _).2 (AMRange.sub_of_invalid a b ha)⟩,
    fun ha hb => ⟨AMRange.sub_of_invalid_right a b ha hb,
      (AMRange.eq_iff _ _).2 (AMRange.sub_of_invalid_right a b ha hb)⟩⟩

theorem sub_invalid_operand_witness :
    (AMRange.valid ⟨11, 5⟩ = false ∧
        (AMRange.sub ⟨11, 5⟩ ⟨5, 7⟩ = ⟨11, 5⟩ ∧
          (AMRange.sub ⟨11, 5⟩ ⟨5, 7⟩).eq ⟨11, 5⟩ = true)) ∧
      (AMRange.valid ⟨1, 5⟩ = true ∧ AMRange.valid ⟨9, 7⟩ = false ∧
        (AMRange.sub ⟨1, 5⟩ ⟨9, 7⟩ = ⟨9, 7⟩ ∧
          (AMRange.sub ⟨1, 5⟩ ⟨9, 7⟩).eq ⟨9, 7⟩ = true)) :=
  ⟨⟨by decide, (sub_invalid_operand ⟨11, 5⟩ ⟨5, 7⟩).1 (by decide)⟩,
    ⟨by decide, by decide, (sub_invalid_operand ⟨1, 5⟩ ⟨9, 7⟩).2 (by decide) (by decide)⟩⟩

/-- C17: invalidity propagates through the range operators: for all ranges `a`, `b`,
if `a` is invalid or `b` is invalid then `(a + b).valid()` is false and
`(a - b).valid()` is false. -/
theorem invalid_propagates (a b : AMRange) (h : a.valid = false ∨ b.valid = false) :
    (a.add b).valid = false ∧ (a.sub b).valid = false := by
  by_cases ha : a.valid = true
  · have hb : b.valid = false := by
      rcases h with h | h
      · rw [ha] at h; exact absurd h (by decide)
      · exact h
    rw [AMRange.add_of_invalid_right a b ha hb, AMRange.sub_of_invalid_right a b ha hb]
    exact ⟨hb, hb⟩
  · have ha2 : a.valid = false := by simpa using ha
    rw [AMRange.add_of_invalid a b ha2, AMRange.sub_of_invalid a b ha2]
    exact ⟨ha2, ha2⟩

theorem invalid_propagates_witness :
    (AMRange.valid ⟨1, 5⟩ = false ∨ AMRange.valid ⟨9, 7⟩ = false) ∧
      ((AMRange.add ⟨1, 5⟩ ⟨9, 7⟩).valid = false ∧ (AMRange.sub ⟨1, 5⟩ ⟨9, 7⟩).valid = false) :=
  ⟨by decide, invalid_propagates ⟨1, 5⟩ ⟨9, 7⟩ (by decide)⟩

/-- C18: `intersect` never returns an invalid range: for all ranges `a`, `b`, invalid
ones included, `intersect(a, b)` has `from = max(a.from, b.from)` and
`to = max(from, min(a.to, b.to))`, so it is valid, and when
`min(a.to, b.to) < max(a.from, b.from)` it is the empty range positioned at
`max(a.from, b.from)`. -/
theorem intersect_valid (a b : AMRange) :
    (a.intersect b).from_ = max a.from_ b.from_ ∧
      (a.intersect b).to_ = max (a.intersect b).from_ (min a.to_ b.to_) ∧
      (a.intersect b).valid = true ∧
      (min a.to_ b.to_ < max a.from_ b.from_ →
        a.intersect b = ⟨max a.from_ b.from_, max a.from_ b.from_⟩ ∧
          (a.intersect b).empty = true) := by
  obtain ⟨h1, h2⟩ := AMRange.intersect_bounds a b
  refine ⟨h1, by rw [h2, h1], ?_, fun hlt => ⟨?_, ?_⟩⟩
  · rw [AMRange.valid_iff, h1, h2]; omega
  · rw [AMRange.ext_iff2, h1, h2]; dsimp only; omega
  · simp only [AMRange.empty, decide_eq_true_eq]
    rw [h1, h2]; omega

/-- C19: `intersect` is the exact point-set intersection: for all ranges `a`, `b` and
every value `x`, `intersect(a, b).in(x)` if and only if `a.in(x)` and `b.in(x)`; in
particular the intersection of ranges sharing no point is empty. -/
theorem intersect_exact (a b : AMRange) :
    (∀ x, (a.intersect b).inT x = true ↔ (a.inT x = true ∧ b.inT x = true)) ∧
      ((∀ x, ¬ (a.inT x = true ∧ b.inT x = true)) → (a.intersect b).empty = true) := by
  obtain ⟨h1, h2⟩ := AMRange.intersect_bounds a b
  refine ⟨fun x => ?_, fun hno => ?_⟩
  · simp only [AMRange.inT_iff]
    rw [h1, h2]; omega
  · have h := hno (max a.from_ b.from_)
    simp only [AMRange.inT_iff] at h
    simp only [AMRange.empty, decide_eq_true_eq]
    rw [h1, h2]; omega

/-- C20: range containment: for all ranges `a`, `b` over integers, `a.in(b)` is true if
and only if `b` is non-empty (`b.to > b.from`), `b.from >= a.from` and `b.to <= a.to`;
equivalently, if and only if `b` is non-empty and every `x` with `b.in(x)` also has
`a.in(x)`.  Hence an empty or invalid `b` is never in any range, and an invalid `a`
contains no range. -/
theorem inRange_iff (a b : AMRange) :
    (a.inRange b = true ↔ (b.to_ > b.from_ ∧ b.from_ ≥ a.from_ ∧ b.to_ ≤ a.to_)) ∧
      (a.inRange b = true ↔
        (b.nonEmpty = true ∧ ∀ x, b.inT x = true → a.inT x = true)) ∧
      ((b.empty = true ∨ b.valid = false) → a.inRange b = false) ∧
      (a.valid = false → a.inRange b = false) := by
  have hin : a.inRange b = true ↔ (b.to_ > b.from_ ∧ b.from_ ≥ a.from_ ∧ b.to_ ≤ a.to_) := by
    simp only [AMRange.inRange, Bool.and_eq_true, decide_eq_true_eq]
    omega
  have hf : ∀ {p : Bool}, ¬ p = true → p = false := fun h => by simpa using h
  refine ⟨hin, ?_, fun hb => hf ?_, fun ha => hf ?_⟩
  · rw [hin, AMRange.nonEmpty_iff]
    simp only [AMRange.inT_iff]
    constructor
    · rintro ⟨h1, h2, h3⟩
      exact ⟨h1, fun x hx => by omega⟩
    · rintro ⟨h1, h2⟩
      have e1 := h2 b.from_ (by omega)
      have e2 := h2 (b.to_ - 1) (by omega)
      omega
  · rw [hin]
    simp only [AMRange.empty, decide_eq_true_eq, AMRange.valid_eq_false_iff] at hb
    omega
  · rw [hin]
    rw [AMRange.valid_eq_false_iff] at ha
    omega

/-! ## Order, packed predicate, quirks -/

theorem isPackedLoop_chain (it : AMRange) (rest : List AMRange) :
    isPackedLoop it rest = true ↔
      (∀ y ∈ rest, y.valid = true) ∧ List.Chain (fun a b => b.from_ > a.to_) it rest := by
  induction rest generalizing it with
  | nil => simp [isPackedLoop]
  | cons itn rest ih =>
    unfold isPackedLoop
    by_cases h1 : itn.from_ > it.to_
    · by_cases h2 : itn.valid = true
      · simp only [h1, h2, if_true, Bool.not_true, Bool.false_eq_true, if_false, ih,
          List.chain_cons, List.mem_cons, forall_eq_or_imp, true_and]
      · simp only [h1, h2, if_true, Bool.not_false, List.mem_cons, forall_eq_or_imp,
          Bool.false_eq_true, false_iff]
        intro h
        exact h.1.1
    · simp only [h1, if_false, List.chain_cons, Bool.false_eq_true, false_iff]
      intro h
      exact h.2.1

theorem runLoop_mono {σ ρ : Type} (step : σ → LoopStep σ ρ) (n : Nat) (st : σ) (v : ρ)
    (h : runLoop step n st = some v) (m : Nat) (hm : n ≤ m) : runLoop step m st = some v := by
  induction n generalizing st m with
  | zero => simp [runLoop] at h
  | succ n ih =>
    obtain ⟨k, rfl⟩ : ∃ k, m = k + 1 := ⟨m - 1, by omega⟩
    rw [runLoop] at h ⊢
    cases hs : step st with
    | ret res => rw [hs] at h; exact h
    | next st1 =>
      rw [hs] at h
      exact ih st1 h k (by omega)

theorem runLoop_packRun (l : List AMRange) (r : AMRange) (res : List AMRange) :
    runLoop packStep (2 * l.length + 1) ⟨l, false, r, res⟩ = some (packRun l r res) := by
  induction l generalizing r res with
  | nil => simp [runLoop, packStep, packRun]
  | cons m rest ih =>
    have e : 2 * (m :: rest).length + 1 = (2 * rest.length + 2) + 1 := by
      simp only [List.length_cons]; omega
    rw [e, runLoop, packRun]
    by_cases h1 : m.valid = true
    · by_cases h2 : (r.add m).valid = true
      · simp only [packStep, h1, h2, Bool.not_true, Bool.false_eq_true, if_false, if_true]
        exact runLoop_mono _ _ _ _ (ih _ _) _ (by omega)
      · simp only [packStep, h1, h2, Bool.not_true, Bool.false_eq_true, if_false]
        exact runLoop_mono _ _ _ _ (ih _ _) _ (by omega)
    · simp only [packStep, h1, Bool.not_false, if_true]
      exact runLoop_mono _ _ _ _ (ih _ _) _ (by omega)

theorem runLoop_packStart (s : List AMRange) (r : AMRange) :
    runLoop packStep (2 * s.length + 2) ⟨s, true, r, []⟩ = some (packStart s) := by
  induction s with
  | nil => simp [runLoop, packStep, packStart]
  | cons m rest ih =>
    have e : 2 * (m :: rest).length + 2 = (2 * rest.length + 3) + 1 := by
      simp only [List.length_cons]; omega
    rw [e, runLoop, packStart]
    by_cases h1 : m.valid = true
    · simp only [packStep, h1, Bool.not_true, Bool.false_eq_true, if_false, if_true]
      have := runLoop_packRun (m :: rest) m []
      simp only [List.length_cons] at this
      exact runLoop_mono _ _ _ _ this _ (by omega)
    · simp only [packStep, h1, Bool.not_false, if_true]
      exact runLoop_mono _ _ _ _ ih _ (by omega)

theorem runLoop_subLoop (L R : List AMRange) (r : AMRange) (res : List AMRange) :
    runLoop subLoopStep (L.length + R.length + 1) ⟨L, R, r, res⟩ = some (subLoop L R r res) := by
  induction L generalizing R r res with
  | nil =>
    induction R with
    | nil => simp [runLoop, subLoopStep, subLoop]
    | cons q rs ih =>
      rw [subLoop]
      simp only [List.length_cons, List.length_nil, Nat.zero_add] at ih ⊢
      rw [runLoop]
      simp only [subLoopStep]
      exact ih
  | cons l ls ihL =>
    induction R generalizing r res with
    | nil =>
      rw [subLoop]
      have := ihL [] (advanceLeft ls r res).1 (advanceLeft ls r res).2
      simp only [List.length_cons, List.length_nil, Nat.add_zero] at this ⊢
      rw [runLoop]
      simp only [subLoopStep]
      exact this
    | cons q rs ihR =>
      rw [subLoop]
      by_cases h : l.to_ > q.to_
      · have := ihR (subStep r q res).1 (subStep r q res).2
        simp only [List.length_cons] at this ⊢
        rw [show ls.length + 1 + (rs.length + 1) + 1 = (ls.length + 1 + rs.length + 1) + 1 by
          omega, runLoop]
        simp only [subLoopStep, h, if_true]
        exact this
      · have := ihL (q :: rs) (advanceLeft ls (subStep r q res).1 (subStep r q res).2).1
          (advanceLeft ls (subStep r q res).1 (subStep r q res).2).2
        simp only [List.length_cons] at this ⊢
        rw [show ls.length + 1 + (rs.length + 1) + 1 = (ls.length + (rs.length + 1) + 1) + 1 by
          omega, runLoop]
        simp only [subLoopStep, h, if_false]
        exact this

/-- C21: `operator<` is the strict lexicographic total order on `(from, to)`: it is
irreflexive and transitive, and for all ranges `a`, `b` exactly one of `a < b`,
`b < a`, `a == b` holds; so two ranges are the same set element (neither is less than
the other) if and only if `operator==` is true, and `operator!=` is the negation of
`operator==`. -/
theorem lt_strict_total_order :
    (∀ a b : AMRange, a.lt b = true ↔
        (a.from_ < b.from_ ∨ (a.from_ = b.from_ ∧ a.to_ < b.to_))) ∧
      (∀ a : AMRange, a.lt a = false) ∧
      (∀ a b c : AMRange, a.lt b = true → b.lt c = true → a.lt c = true) ∧
      (∀ a b : AMRange,
        (a.lt b = true ∧ b.lt a = false ∧ a.eq b = false) ∨
        (a.lt b = false ∧ b.lt a = true ∧ a.eq b = false) ∨
        (a.lt b = false ∧ b.lt a = false ∧ a.eq b = true)) ∧
      (∀ a b : AMRange, (a.lt b = false ∧ b.lt a = false) ↔ a.eq b = true) ∧
      (∀ a b : AMRange, a.ne b = !a.eq b) := by
  have hf : ∀ a b : AMRange, a.lt b = false ↔
      ¬ (a.from_ < b.from_ ∨ (a.from_ = b.from_ ∧ a.to_ < b.to_)) := by
    intro a b
    rw [← AMRange.lt_iff, Bool.not_eq_true]
  have he : ∀ a b : AMRange, a.eq b = true ↔ (a.from_ = b.from_ ∧ a.to_ = b.to_) := by
    intro a b
    simp [AMRange.eq]
  have hne : ∀ a b : AMRange, a.eq b = false ↔ ¬ (a.from_ = b.from_ ∧ a.to_ = b.to_) := by
    intro a b
    rw [← he, Bool.not_eq_true]
  refine ⟨AMRange.lt_iff, AMRange.lt_irrefl, fun a b c => AMRange.lt_trans, ?_, ?_, ?_⟩
  · intro a b
    simp only [AMRange.lt_iff, hf, he, hne]
    omega
  · intro a b
    simp only [hf, he]
    omega
  · intro a b
    simp only [AMRange.ne, AMRange.eq]
    by_cases h1 : a.from_ = b.from_ <;> by_cases h2 : a.to_ = b.to_ <;> simp [h1, h2]

/-- C22: `isPacked` decides the packed predicate: for every set `s`, `isPacked(s)` is
true if and only if every member of `s` is valid and for every pair of consecutive
members the next member's `from` is strictly greater than the current member's `to`;
the empty set is packed, and `isPacked(s)` implies `valid(s)`. -/
theorem isPacked_decides (s : List AMRange) :
    (isPacked s = true ↔
        ((∀ m ∈ s, m.valid = true) ∧ List.Chain' (fun a b => b.from_ > a.to_) s)) ∧
      isPacked [] = true ∧ (isPacked s = true → valid s = true) := by
  have key : isPacked s = true ↔
      ((∀ m ∈ s, m.valid = true) ∧ List.Chain' (fun a b => b.from_ > a.to_) s) := by
    cases s with
    | nil => simp [isPacked]
    | cons it rest =>
      unfold isPacked
      by_cases h : it.valid = true
      · simp only [h, Bool.not_true, Bool.false_eq_true, if_false, isPackedLoop_chain,
          List.mem_cons, forall_eq_or_imp, true_and, List.Chain']
      · simp only [h, Bool.not_false, if_true, List.mem_cons, forall_eq_or_imp,
          Bool.false_eq_true, false_iff]
        intro hc
        exact hc.1.1
  refine ⟨key, rfl, fun hp => ?_⟩
  exact (valid_iff_forall s).2 (key.1 hp).1

/-- C23: the empty-receiver quirk of range union: for all valid ranges `a`, `b` with
`a` empty (`a.from == a.to`) and `a` disjoint from `b` (`a.to < b.from` or
`a.from > b.to`), `a + b == b`, no invalid sentinel is produced; whereas with the
operands exchanged and `b` non-empty, `b + a` is invalid; so range union is not
commutative on valid operands. -/
theorem add_empty_receiver (a b : AMRange) (ha : a.valid = true) (hb : b.valid = true)
    (he : a.from_ = a.to_) (hd : a.to_ < b.from_ ∨ a.from_ > b.to_) :
    a.add b = b ∧ (a.add b).eq b = true ∧ (a.add b).valid = true ∧
      (b.to_ > b.from_ → (b.add a).valid = false ∧ a.add b ≠ b.add a) := by
  have hab : a.add b = b := by
    rcases AMRange.add_cases a b ha hb with ⟨_, _, h⟩ | ⟨_, hne, _⟩ | ⟨ht, _⟩
    · exact h
    · omega
    · omega
  refine ⟨hab, (AMRange.eq_iff _ _).2 hab, by rw [hab]; exact hb, fun hne => ?_⟩
  have hba : (b.add a).valid = false := by
    rcases AMRange.add_cases b a hb ha with ⟨_, he2, _⟩ | ⟨_, _, h⟩ | ⟨ht, _⟩
    · omega
    · rw [h, AMRange.valid_eq_false_iff]; exact hne
    · omega
  refine ⟨hba, fun heq => ?_⟩
  rw [← heq, hab, hb] at hba
  exact absurd hba (by decide)

theorem add_empty_receiver_witness :
    AMRange.valid ⟨0, 0⟩ = true ∧ AMRange.valid ⟨5, 7⟩ = true ∧
      (AMRange.mk 0 0).from_ = (AMRange.mk 0 0).to_ ∧
      ((AMRange.mk 0 0).to_ < (AMRange.mk 5 7).from_ ∨
        (AMRange.mk 0 0).from_ > (AMRange.mk 5 7).to_) ∧
      (AMRange.add ⟨0, 0⟩ ⟨5, 7⟩ = ⟨5, 7⟩ ∧ (AMRange.add ⟨0, 0⟩ ⟨5, 7⟩).eq ⟨5, 7⟩ = true ∧
        (AMRange.add ⟨0, 0⟩ ⟨5, 7⟩).valid = true ∧
        ((AMRange.mk 5 7).to_ > (AMRange.mk 5 7).from_ →
          (AMRange.add ⟨5, 7⟩ ⟨0, 0⟩).valid = false ∧
            AMRange.add ⟨0, 0⟩ ⟨5, 7⟩ ≠ AMRange.add ⟨5, 7⟩ ⟨0, 0⟩)) :=
  ⟨by decide, by decide, by decide, by decide,
    add_empty_receiver ⟨0, 0⟩ ⟨5, 7⟩ (by decide) (by decide) (by decide) (by decide)⟩

/-- C24: `intersect` is commutative: for all ranges `a`, `b`, valid or not,
`intersect(a, b) == intersect(b, a)`, including the position of the empty result when
the operands are disjoint. -/
theorem intersect_comm (a b : AMRange) :
    a.intersect b = b.intersect a ∧ (a.intersect b).eq (b.intersect a) = true := by
  have h : a.intersect b = b.intersect a := by
    obtain ⟨h1, h2⟩ := AMRange.intersect_bounds a b
    obtain ⟨h3, h4⟩ := AMRange.intersect_bounds b a
    rw [AMRange.ext_iff2, h1, h2, h3, h4]
    omega
  exact ⟨h, (AMRange.eq_iff _ _).2 h⟩

/-- C25, the claim as stated fails for a left set that has members but no valid one:
`pack({[5,1)})` is empty, so `operator-` reads `*lit` at `ls.end()` and no result is
defined for `{[5,1)} - {[1,3)}`. -/
theorem setSub_undefined_counterexample :
    IsSet [⟨5, 1⟩] ∧ IsSet [⟨1, 3⟩] ∧ ([⟨1, 3⟩] : List AMRange) ≠ [] ∧
      (∀ q ∈ [(⟨1, 3⟩ : AMRange)], q.nonEmpty = true) ∧
      pack [⟨5, 1⟩] = [] ∧ setSub [⟨5, 1⟩] [⟨1, 3⟩] = none ∧
      ¬ ∃ res, setSub [⟨5, 1⟩] [⟨1, 3⟩] = some res ∧ isPacked res = true := by
  have h : setSub [⟨5, 1⟩] [⟨1, 3⟩] = none := by decide
  refine ⟨by decide, by decide, by decide, by decide, by decide, h, ?_⟩
  rintro ⟨res, hres, _⟩
  rw [h] at hres
  exact absurd hres (by simp)

/-- C25, amended: for every set `s` that is empty or has at least one valid member (so
for every valid `s`) and every set `t` that has at least one member and whose members
are all non-empty ranges (`to > from`), the set difference `s - t` is returned, is
packed, and every member of `s - t` is a non-empty range; consecutive members are
separated by strictly positive gaps. -/
theorem setSub_packed_nonEmpty (s t : List AMRange) (hs : IsSet s) (ht : IsSet t)
    (hsv : s = [] ∨ ∃ m ∈ s, m.valid = true) (htm : t ≠ [])
    (htne : ∀ q ∈ t, q.nonEmpty = true) :
    ∃ res, setSub s t = some res ∧ isPacked res = true ∧
      (∀ y ∈ res, y.nonEmpty = true) ∧ List.Chain' (fun a b => a.to_ < b.from_) res := by
  rcases hsv with rfl | hsv
  · exact ⟨[], rfl, rfl, by simp, by simp⟩
  · obtain ⟨res, h1, h2, h3⟩ := setSub_packed_main s t hs ht hsv htm htne
    exact ⟨res, h1, (isPacked_iff res).2 h2, h3, List.Pairwise.chain' h2.2⟩

theorem setSub_packed_nonEmpty_witness :
    IsSet [⟨0, 35⟩, ⟨40, 38⟩] ∧ IsSet s07 ∧
      (([⟨0, 35⟩, ⟨40, 38⟩] : List AMRange) = [] ∨
        ∃ m ∈ [(⟨0, 35⟩ : AMRange), ⟨40, 38⟩], m.valid = true) ∧
      s07 ≠ [] ∧ (∀ q ∈ s07, AMRange.nonEmpty q = true) ∧
      ∃ res, setSub [⟨0, 35⟩, ⟨40, 38⟩] s07 = some res ∧ isPacked res = true ∧
        (∀ y ∈ res, y.nonEmpty = true) ∧ List.Chain' (fun a b => a.to_ < b.from_) res :=
  ⟨by decide, by decide, by decide, by decide, by decide,
    setSub_packed_nonEmpty _ _ (by decide) (by decide) (by decide) (by decide) (by decide)⟩

/-- C26: the set-level algorithms are total.  For every finite set `s` the loop of
`pack` leaves with `pack(s)` within `2 * size + 2` passes: a pass either clears `start`
without moving `it` (the first valid member is visited once more) or moves `it` one
member on, and the measure `packMeasure` strictly decreases.  For all finite sets the
cursor loop of `s - t` leaves within `size(ls) + size(rs) + 1` passes: every pass that
does not leave the loop advances exactly one cursor by one member, and only a cursor
that is not at its end. -/
theorem loops_terminate :
    (∀ s : List AMRange, runLoop packStep (2 * s.length + 2) (packInit s) = some (pack s)) ∧
      (∀ st st1 : PackState, packStep st = LoopStep.next st1 →
        packMeasure st1 < packMeasure st ∧
          ((st1.it = st.it ∧ st.start = true ∧ st1.start = false) ∨
            (∃ m, st.it = m :: st1.it))) ∧
      (∀ (L R : List AMRange) (r : AMRange) (res : List AMRange),
        runLoop subLoopStep (L.length + R.length + 1) ⟨L, R, r, res⟩ =
          some (subLoop L R r res)) ∧
      (∀ st st1 : SubState, subLoopStep st = LoopStep.next st1 →
        (∃ l, st.lit = l :: st1.lit ∧ st1.rit = st.rit) ∨
          (∃ q, st.rit = q :: st1.rit ∧ st1.lit = st.lit)) := by
  refine ⟨fun s => runLoop_packStart s _, ?_, runLoop_subLoop, ?_⟩
  · rintro ⟨it, start, r, result⟩ st1 h
    cases it with
    | nil => simp [packStep] at h
    | cons m rest =>
      simp only [packStep] at h
      split_ifs at h with h1 h2 h3
      all_goals
        injection h with h
        subst h
        simp_all [packMeasure]
  · rintro ⟨lit, rit, r, result⟩ st1 h
    cases lit with
    | nil =>
      cases rit with
      | nil => simp [subLoopStep] at h
      | cons q rs =>
        simp only [subLoopStep] at h
        injection h with h
        subst h
        exact Or.inr ⟨q, rfl, rfl⟩
    | cons l ls =>
      cases rit with
      | nil =>
        simp only [subLoopStep] at h
        injection h with h
        subst h
        exact Or.inl ⟨l, rfl, rfl⟩
      | cons q rs =>
        simp only [subLoopStep] at h
        split_ifs at h with h1
        · injection h with h
          subst h
          exact Or.inr ⟨q, rfl, rfl⟩
        · injection h with h
          subst h
          exact Or.inl ⟨l, rfl, rfl⟩

end AMCore
